import Mathlib

/-!
DynamicAngularComponentInjectorPlugin.

A shallow embedding of `src/index.js`: the webpack resolver hook that swaps a
requested Angular component file for a sibling carrying a preferred prefix.

JavaScript strings are modelled as lists of characters.  The functions of the
plugin only split on `/` and `\`, compare with ASCII literals and concatenate,
so nothing depends on how a character is encoded.

The two library calls the plugin makes are kept outside the plugin:
`path.join` and `fs.existsSync` are parameters of the embedded functions
(`join`, `existsSync`), and `posixJoin` is the `path.join` of Node on POSIX.
`win32Join` is the `path.join` of Node on Windows.
`existsSyncOf` is `fs.existsSync` over a filesystem whose queries can fail,
`redirectChain` feeds the request of a redirect back into the hook, and
`hookOfValue` is the hook on a request whose `path` need not be a string, with
the callback it is handed written out in its calls.
-/

namespace DynamicAngularComponentInjectorPlugin

/-- JavaScript string: the list of its characters. -/
abbrev Str := List Char

/-! ## JavaScript built-ins used by the plugin -/

/-- JavaScript `s.split(sep)` for a one-character separator: the pieces between the
separators, in order; always at least one piece. -/
def split (sep : Char) : Str → List Str
  | [] => [[]]
  | c :: cs =>
    if c = sep then [] :: split sep cs
    else
      match split sep cs with
      | [] => [[c]]
      | seg :: segs => (c :: seg) :: segs

/-- JavaScript `s.endsWith(searchString)`. -/
def endsWith (s searchString : Str) : Bool :=
  searchString.isSuffixOf s

/-- Line terminators of ECMAScript: the characters the regular expression
atom `.` does not match. -/
def isLineTerminator (c : Char) : Bool :=
  c = Char.ofNat 0x0A || c = Char.ofNat 0x0D || c = Char.ofNat 0x2028 || c = Char.ofNat 0x2029

/-- Match of the literal `\.\/` at the start of a string: what follows it. -/
def matchDotSlash : Str → Option Str
  | c₁ :: c₂ :: rest => if c₁ = '.' ∧ c₂ = '/' then some rest else none
  | _ => none

/-- Backtracking match of the rest of `/^.+\.\//` once `.+` has consumed at
least one character: `.+` first tries to consume the next character too
(greedy), and only when that fails is `\.\/` tried at the current position.
Returns what follows the match. -/
def matchAfterDotPlus : Str → Option Str
  | [] => none
  | c :: cs =>
    match (if isLineTerminator c then none else matchAfterDotPlus cs) with
    | some rest => some rest
    | none => matchDotSlash (c :: cs)

/-- JavaScript `s.replace(/^.+\.\//, '')`: the match is anchored at the start of the
string and is removed when there is one; otherwise the string is returned
as it is. -/
def replaceTraversals (s : Str) : Str :=
  match s with
  | [] => []
  | c :: cs =>
    if isLineTerminator c then s
    else
      match matchAfterDotPlus cs with
      | some rest => rest
      | none => s

/-! ## `path.join` of Node on POSIX -/

/-- One segment of `normalizeString`: empty and `.` segments are skipped, `..`
removes the last kept segment unless there is none or it is `..` itself (then
`..` is kept when `allowAboveRoot`), any other segment is kept. -/
def normalizeStep (allowAboveRoot : Bool) (res : List Str) (seg : Str) : List Str :=
  if seg = [] ∨ seg = ['.'] then res
  else if seg = ['.', '.'] then
    match res.getLast? with
    | none => if allowAboveRoot then [['.', '.']] else []
    | some last =>
      if last = ['.', '.'] then (if allowAboveRoot then res ++ [['.', '.']] else res)
      else res.dropLast
  else res ++ [seg]

/-- Node `normalizeString(path, allowAboveRoot, '/', isPosixPathSeparator)`. -/
def normalizeString (path : Str) (allowAboveRoot : Bool) : Str :=
  ['/'].intercalate ((split '/' path).foldl (normalizeStep allowAboveRoot) [])

/-- Node `path.posix.normalize(path)`. -/
def posixNormalize (path : Str) : Str :=
  if path = [] then ['.']
  else
    let isAbsolute := path.head? = some '/'
    let trailingSeparator := path.getLast? = some '/'
    let res := normalizeString path (!decide isAbsolute)
    if res = [] then
      if isAbsolute then ['/'] else if trailingSeparator then ['.', '/'] else ['.']
    else
      let res := if trailingSeparator then res ++ ['/'] else res
      if isAbsolute then '/' :: res else res

/-- Node `path.posix.join(...args)`: the non-empty arguments joined with `/`, then
normalised; `.` when nothing is left. -/
def posixJoin (args : List Str) : Str :=
  match args.filter (fun arg => arg ≠ []) with
  | [] => ['.']
  | parts => posixNormalize (['/'].intercalate parts)

/-! ## `path.join` of Node on Windows -/

/-- Node `isPathSeparator(code)`: on Windows both `/` and `\` separate. -/
def isPathSeparator (c : Char) : Bool :=
  c = '/' || c = '\\'

/-- Node `isWindowsDeviceRoot(code)`: a letter `A`-`Z` or `a`-`z`. -/
def isWindowsDeviceRoot (c : Char) : Bool :=
  ('A'.toNat ≤ c.toNat && c.toNat ≤ 'Z'.toNat) || ('a'.toNat ≤ c.toNat && c.toNat ≤ 'z'.toNat)

/-- The pieces of a path between its separators, `/` or `\`. -/
def splitSeparators : Str → List Str
  | [] => [[]]
  | c :: cs =>
    if isPathSeparator c then [] :: splitSeparators cs
    else
      match splitSeparators cs with
      | [] => [[c]]
      | seg :: segs => (c :: seg) :: segs

/-- Node `normalizeString(path, allowAboveRoot, '\\', isPathSeparator)`. -/
def win32NormalizeString (path : Str) (allowAboveRoot : Bool) : Str :=
  ['\\'].intercalate ((splitSeparators path).foldl (normalizeStep allowAboveRoot) [])

/-- The end of `path.win32.normalize`, once the root is known: the device
(`C:` or `\\server\share`) if there is one, whether the path is absolute, and
what follows the root. -/
def win32NormalizeTail (path : Str) (device : Option Str) (isAbsolute : Bool)
    (afterRoot : Str) : Str :=
  let tail := win32NormalizeString afterRoot (!isAbsolute)
  let tail := if tail = [] ∧ isAbsolute = false then ['.'] else tail
  let tail :=
    if tail ≠ [] ∧ (path.getLast?.map isPathSeparator) = some true then tail ++ ['\\'] else tail
  match device with
  | none => if isAbsolute then '\\' :: tail else tail
  | some device => if isAbsolute then device ++ '\\' :: tail else device ++ tail

/-- Node `path.win32.normalize(path)`. -/
def win32Normalize (path : Str) : Str :=
  match path with
  | [] => ['.']
  | [c] => if c = '/' then ['\\'] else [c]
  | c0 :: c1 :: rest =>
    if isPathSeparator c0 then
      if isPathSeparator c1 then
        let firstPart := rest.takeWhile fun c => !isPathSeparator c
        let rest1 := rest.dropWhile fun c => !isPathSeparator c
        if firstPart ≠ [] ∧ rest1 ≠ [] then
          let rest2 := rest1.dropWhile isPathSeparator
          if rest2 ≠ [] then
            let share := rest2.takeWhile fun c => !isPathSeparator c
            let rest3 := rest2.dropWhile fun c => !isPathSeparator c
            if rest3 = [] then ['\\', '\\'] ++ firstPart ++ ['\\'] ++ share ++ ['\\']
            else
              win32NormalizeTail path (some (['\\', '\\'] ++ firstPart ++ ['\\'] ++ share))
                true rest3
          else win32NormalizeTail path none true path
        else win32NormalizeTail path none true path
      else win32NormalizeTail path none true (c1 :: rest)
    else if isWindowsDeviceRoot c0 ∧ c1 = ':' then
      match rest with
      | c2 :: rest' =>
        if isPathSeparator c2 then win32NormalizeTail path (some [c0, ':']) true rest'
        else win32NormalizeTail path (some [c0, ':']) false rest
      | [] => win32NormalizeTail path (some [c0, ':']) false []
    else win32NormalizeTail path none false path

/-- Node `path.win32.join(...args)`: the non-empty arguments joined with `\`,
leading separators collapsed to one unless the first argument starts like a
UNC path, then normalised; `.` when nothing is left. -/
def win32Join (args : List Str) : Str :=
  match args.filter (fun arg => arg ≠ []) with
  | [] => ['.']
  | firstPart :: parts =>
    let joined := ['\\'].intercalate (firstPart :: parts)
    let needsReplace :=
      match firstPart with
      | c0 :: c1 :: c2 :: _ => !(isPathSeparator c0 && isPathSeparator c1 && !isPathSeparator c2)
      | _ => true
    let slashCount := (joined.takeWhile isPathSeparator).length
    let joined :=
      if needsReplace = true ∧ 2 ≤ slashCount then '\\' :: joined.drop slashCount else joined
    win32Normalize joined

/-! ## The plugin -/

/-- The request object of the resolver: `path` is the directory of the
importing module, `request` the module specifier; `query` and `directory` are
passed along untouched. -/
structure Request where
  path : Str
  request : Str
  query : Str
  directory : Bool
  deriving DecidableEq, Repr

/-- The calls the hook makes on its collaborators, in the order it makes them. -/
inductive Call where
  /-- The call `fs.existsSync(path)`. -/
  | existsSync (path : Str)
  /-- The call `callback()`, without arguments. -/
  | callback
  /-- The call `resolver.doResolve(target, request, message, callback)`. -/
  | doResolve (target : Str) (request : Request) (message : Str)
  deriving DecidableEq, Repr

/-- The parent segments left after one `pop()` per leading `..` element of the
split request (the `for ... of` loop of `getFilePath`, which breaks at the
first element that is not `..`). -/
def popTraversals : List Str → List Str → List Str
  | [], splitParentPath => splitParentPath
  | relativePathEl :: rest, splitParentPath =>
    if relativePathEl ≠ ['.', '.'] then splitParentPath
    else popTraversals rest splitParentPath.dropLast

/-- Source function `getFilePath(relativeRequest, parentPath)`; `join` is `path.join`. -/
def getFilePath (join : List Str → Str) (relativeRequest parentPath : Str) : Str :=
  let strippedRelativeRequest := replaceTraversals relativeRequest
  let splitRequest := split '/' relativeRequest
  let splitParentPath := split '\\' parentPath
  let splitParentPath := popTraversals splitRequest splitParentPath
  join (splitParentPath ++ [strippedRelativeRequest])

/-- Source function `getPreferredRequest(request, preferredFilePrefixFileName)`. -/
def getPreferredRequest (request : Request) (preferredFilePrefixFileName : Str) : Str :=
  let splitRequest := split '/' request.request
  let splitRequest := splitRequest.dropLast
  let splitRequest := splitRequest ++ [preferredFilePrefixFileName]
  splitRequest.foldl
    (fun newRequest chunk =>
      (if newRequest ≠ [] then newRequest ++ ['/'] else newRequest) ++ chunk)
    []

/-- Source function `getPreferredFileName(request, preferredFilePrefix)`. -/
def getPreferredFileName (request : Request) (preferredFilePrefix : Str) : Str :=
  let splitRequest := split '/' request.request
  let componentFileName := splitRequest.getLastD []
  preferredFilePrefix ++ ['.'] ++ componentFileName

/-- Source function `doesFileExist(filePath)`: the answer, and the `fs.existsSync` calls made
to get it (`||` does not evaluate its right operand when the left one is
true). -/
def doesFileExist (existsSync : Str → Bool) (filePath : Str) : Bool × List Call :=
  if endsWith filePath ".html".toList ||
      endsWith filePath ".scss".toList ||
      endsWith filePath ".css".toList then
    (existsSync filePath, [Call.existsSync filePath])
  else
    if existsSync (filePath ++ ".ts".toList) then
      (true, [Call.existsSync (filePath ++ ".ts".toList)])
    else
      (existsSync (filePath ++ ".js".toList),
        [Call.existsSync (filePath ++ ".ts".toList), Call.existsSync (filePath ++ ".js".toList)])

/-- The filter of the hook on the request string: it ends in one of the six
supported suffixes. -/
def isSupported (request : Request) : Bool :=
  endsWith request.request "component".toList ||
  endsWith request.request "component.html".toList ||
  endsWith request.request "component.ts".toList ||
  endsWith request.request "component.js".toList ||
  endsWith request.request "component.scss".toList ||
  endsWith request.request "component.css".toList

/-- What one invocation of the hook leaves behind: the calls it made, in
order, and the request object it was given (the body never assigns to it). -/
structure HookResult where
  calls : List Call
  request : Request
  deriving DecidableEq, Repr

/-- The function registered with `resolver.plugin(this.source, ...)`.
`preferredFilePrefix` is `none` when the option is `undefined`; `undefined`
and the empty string are the values `!preferredFilePrefix` holds for. -/
def hook (join : List Str → Str) (existsSync : Str → Bool)
    (preferredFilePrefix : Option Str) (request : Request) : HookResult :=
  match preferredFilePrefix with
  | none => ⟨[Call.callback], request⟩
  | some pfx =>
    if pfx = [] || !isSupported request then ⟨[Call.callback], request⟩
    else
      let preferredFilePrefixFileName := getPreferredFileName request pfx
      let newRelativeRequest := getPreferredRequest request preferredFilePrefixFileName
      let probe := doesFileExist existsSync (getFilePath join newRelativeRequest request.path)
      if probe.1 then
        let newRequest : Request :=
          { path := request.path
            request := newRelativeRequest
            query := request.query
            directory := request.directory }
        ⟨probe.2 ++ [Call.doResolve "resolve".toList newRequest
            ("Path swapped: ".toList ++ request.request ++ "-->".toList ++
              "New Path: ".toList ++ newRequest.request)], request⟩
      else ⟨probe.2 ++ [Call.callback], request⟩

/-- The path the hook hands to `doesFileExist`:
`getFilePath(newRelativeRequest, request.path)`. -/
def candidatePath (join : List Str → Str) (pfx : Str) (request : Request) : Str :=
  getFilePath join (getPreferredRequest request (getPreferredFileName request pfx)) request.path

/-- The calls made on the host pipeline: everything but the `fs.existsSync`
probes. -/
def pipelineCalls (calls : List Call) : List Call :=
  calls.filter fun call =>
    match call with
    | Call.existsSync _ => false
    | _ => true

/-- What the filesystem answers when asked about a path: the path is there, it
is not, or the query itself fails (permission denied on a directory of the
path, for one). -/
inductive QueryResult where
  | present
  | absent
  | accessError
  deriving DecidableEq, Repr

/-- Node `fs.existsSync(path)` over a filesystem: `true` when the path is there
and `false` otherwise; a query that fails is caught inside `existsSync` and
answered `false`. -/
def existsSyncOf (fs : Str → QueryResult) (path : Str) : Bool :=
  match fs path with
  | QueryResult.present => true
  | QueryResult.absent => false
  | QueryResult.accessError => false

/-- The filesystem in which every path whose query fails is absent. -/
def absentOnError (fs : Str → QueryResult) (path : Str) : QueryResult :=
  match fs path with
  | QueryResult.accessError => QueryResult.absent
  | answer => answer

/-- The request of the first `resolver.doResolve` among the calls, if there is
one: the request the pipeline resolves next. -/
def redirectTarget : List Call → Option Request
  | [] => none
  | Call.doResolve _ request _ :: _ => some request
  | _ :: calls => redirectTarget calls

/-- One round of the pipeline: the hook on a request, and the request it
redirects to when it redirects (`none` when it passes through). -/
def resubmit (join : List Str → Str) (existsSync : Str → Bool)
    (preferredFilePrefix : Option Str) (request : Request) : Option Request :=
  redirectTarget (hook join existsSync preferredFilePrefix request).calls

/-- The request reached after `n` redirects in a row, each redirected request
being fed back into the hook; `none` when the hook passes through before. -/
def redirectChain (join : List Str → Str) (existsSync : Str → Bool)
    (preferredFilePrefix : Option Str) : Nat → Request → Option Request
  | 0, request => some request
  | n + 1, request =>
    match resubmit join existsSync preferredFilePrefix request with
    | none => none
    | some newRequest => redirectChain join existsSync preferredFilePrefix n newRequest

/-- The last piece of a string split on `/`: what `splitRequest.pop()` returns
in `getPreferredFileName`. -/
def lastSegment (s : Str) : Str :=
  (split '/' s).getLastD []

/-! ## The hook on a request whose path need not be a string -/

/-- The request object as the resolver hands it over: the `path` field need
not be a string (the resolver passes `false` when it has no path).  `none`
stands for such a value, one without a `split` method. -/
structure RequestValue where
  path : Option Str
  request : Str
  query : Str
  directory : Bool
  deriving DecidableEq, Repr

/-- The calls of the hook with the callback written out: `κ` is the type of
callbacks, the hook is handed one. -/
inductive CallOf (κ : Type) where
  /-- The call `fs.existsSync(path)`. -/
  | existsSync (path : Str)
  /-- The call `fn()`, without arguments. -/
  | callback (fn : κ)
  /-- The call `resolver.doResolve(target, request, message, fn)`. -/
  | doResolve (target : Str) (request : RequestValue) (message : Str) (fn : κ)
  deriving DecidableEq, Repr

/-- What one invocation of the hook does: the calls it makes, in order, and
whether a `TypeError` leaves it. -/
structure Invocation (κ : Type) where
  calls : List (CallOf κ)
  threw : Bool
  deriving DecidableEq, Repr

/-- The probes of `doesFileExist` among the calls of an invocation. -/
def probeCalls {κ : Type} : List Call → List (CallOf κ)
  | [] => []
  | Call.existsSync path :: calls => CallOf.existsSync path :: probeCalls calls
  | _ :: calls => probeCalls calls

/-- The function registered with `resolver.plugin(this.source, ...)`, on a
request whose `path` is any value, with the callback it is handed.  On a
supported request the first use of `request.path` is `parentPath.split('\\')`
in `getFilePath`; the statements before it make no call, and on a value that
is not a string it throws, before `doesFileExist` is called. -/
def hookOfValue {κ : Type} (join : List Str → Str) (existsSync : Str → Bool)
    (preferredFilePrefix : Option Str) (request : RequestValue) (callback : κ) : Invocation κ :=
  match preferredFilePrefix with
  | none => ⟨[CallOf.callback callback], false⟩
  | some pfx =>
    if pfx = [] ||
        (!endsWith request.request "component".toList &&
          !endsWith request.request "component.html".toList &&
          !endsWith request.request "component.ts".toList &&
          !endsWith request.request "component.js".toList &&
          !endsWith request.request "component.scss".toList &&
          !endsWith request.request "component.css".toList) then
      ⟨[CallOf.callback callback], false⟩
    else
      match request.path with
      | none => ⟨[], true⟩
      | some parentPath =>
        let stringRequest : Request :=
          ⟨parentPath, request.request, request.query, request.directory⟩
        let preferredFilePrefixFileName := getPreferredFileName stringRequest pfx
        let newRelativeRequest := getPreferredRequest stringRequest preferredFilePrefixFileName
        let probe := doesFileExist existsSync (getFilePath join newRelativeRequest parentPath)
        if probe.1 then
          let newRequest : RequestValue :=
            { path := request.path
              request := newRelativeRequest
              query := request.query
              directory := request.directory }
          ⟨probeCalls probe.2 ++ [CallOf.doResolve "resolve".toList newRequest
              ("Path swapped: ".toList ++ request.request ++ "-->".toList ++
                "New Path: ".toList ++ newRequest.request) callback], false⟩
        else ⟨probeCalls probe.2 ++ [CallOf.callback callback], false⟩

/-- The calls of an invocation on the host pipeline: everything but the
`fs.existsSync` probes. -/
def pipelineCallsOf {κ : Type} (calls : List (CallOf κ)) : List (CallOf κ) :=
  calls.filter fun call =>
    match call with
    | CallOf.existsSync _ => false
    | _ => true

/-! ## Splitting and joining -/

theorem split_eq_splitOn (sep : Char) (s : Str) : split sep s = s.splitOn sep := by
  induction s with
  | nil => rfl
  | cons c cs ih =>
    have hne : List.splitOnP (fun x => x == sep) cs ≠ [] := List.splitOnP_ne_nil _ _
    simp only [split, List.splitOn, List.splitOnP_cons, beq_iff_eq] at ih ⊢
    by_cases h : c = sep
    · simp [h, ih]
    · rw [if_neg h, if_neg h, ih]
      cases hs : List.splitOnP (fun x => x == sep) cs with
      | nil => exact absurd hs hne
      | cons seg segs => rfl

theorem split_ne_nil (sep : Char) (s : Str) : split sep s ≠ [] := by
  rw [split_eq_splitOn]
  exact List.splitOnP_ne_nil _ _

theorem intercalate_split (sep : Char) (s : Str) : [sep].intercalate (split sep s) = s := by
  rw [split_eq_splitOn]
  exact List.intercalate_splitOn s sep

theorem split_intercalate (sep : Char) (ls : List Str) (hx : ∀ l ∈ ls, sep ∉ l)
    (hls : ls ≠ []) : split sep ([sep].intercalate ls) = ls := by
  rw [split_eq_splitOn]
  exact List.splitOn_intercalate ls sep hx hls

theorem not_mem_of_mem_split (sep : Char) (s : Str) : ∀ l ∈ split sep s, sep ∉ l := by
  induction s with
  | nil => simp [split]
  | cons c cs ih =>
    by_cases h : c = sep
    · simp only [split, if_pos h, List.mem_cons]
      rintro l (rfl | hl)
      · simp
      · exact ih l hl
    · simp only [split, if_neg h]
      cases hs : split sep cs with
      | nil => exact absurd hs (split_ne_nil sep cs)
      | cons seg segs =>
        rw [hs] at ih
        simp only [List.mem_cons]
        rintro l (rfl | hl)
        · simp only [List.mem_cons, not_or]
          exact ⟨fun e => h e.symm, ih seg (List.mem_cons_self _ _)⟩
        · exact ih l (List.mem_cons_of_mem _ hl)

theorem intercalate_concat (sep : Char) (ls : List Str) (l : Str) (hls : ls ≠ []) :
    [sep].intercalate (ls ++ [l]) = [sep].intercalate ls ++ sep :: l := by
  induction ls with
  | nil => exact absurd rfl hls
  | cons a as ih =>
    cases as with
    | nil => simp [List.intercalate]
    | cons b bs =>
      have := ih (List.cons_ne_nil _ _)
      simp only [List.intercalate, List.cons_append, List.intersperse_cons_cons,
        List.flatten_cons, List.append_assoc] at this ⊢
      rw [this]

/-- The last piece of a split string: the string is a directory part, empty or
ending in the separator, followed by that piece, which holds no separator. -/
theorem split_getLastD (sep : Char) (s : Str) :
    ∃ dir, s = dir ++ (split sep s).getLastD [] ∧ sep ∉ (split sep s).getLastD [] ∧
      (dir = [] ∨ ∃ dir0, dir = dir0 ++ [sep]) := by
  have hne := split_ne_nil sep s
  have hsplit : split sep s = (split sep s).dropLast ++ [(split sep s).getLastD []] := by
    have hlast : ∀ (l : List Str) (h : l ≠ []), l.getLast h = l.getLastD [] := by
      intro l h
      cases l with
      | nil => exact absurd rfl h
      | cons a as => rfl
    conv_lhs => rw [← List.dropLast_append_getLast hne, hlast _ hne]
  have hmem : (split sep s).getLastD [] ∈ split sep s := by
    rw [hsplit]; simp
  have hs := intercalate_split sep s
  rw [hsplit] at hs
  by_cases hd : (split sep s).dropLast = []
  · refine ⟨[], ?_, not_mem_of_mem_split sep s _ hmem, Or.inl rfl⟩
    rw [hd] at hs
    simpa [List.intercalate] using hs.symm
  · refine ⟨[sep].intercalate (split sep s).dropLast ++ [sep], ?_,
      not_mem_of_mem_split sep s _ hmem, Or.inr ⟨_, rfl⟩⟩
    rw [intercalate_concat sep _ _ hd] at hs
    simpa using hs.symm

/-! ## Suffixes -/

theorem endsWith_iff (s t : Str) : endsWith s t = true ↔ t <:+ s := by
  simp [endsWith]

/-- A suffix that holds no separator lies entirely after the last separator. -/
theorem suffix_after_sep (sep : Char) (pre r suf : Str) (hsuf : suf <:+ pre ++ sep :: r)
    (hsep : sep ∉ suf) : suf <:+ r := by
  have hr : r <:+ pre ++ sep :: r := ⟨pre ++ [sep], by simp⟩
  rcases List.suffix_or_suffix_of_suffix hsuf hr with h | h
  · exact h
  · have h2 : sep :: r <:+ pre ++ sep :: r := List.suffix_append _ _
    rcases List.suffix_or_suffix_of_suffix hsuf h2 with h3 | h3
    · rcases List.suffix_cons_iff.mp h3 with h4 | h4
      · exact absurd (h4 ▸ List.mem_cons_self _ _) hsep
      · exact h4
    · exact absurd (h3.mem (List.mem_cons_self _ _)) hsep

/-- A suffix of a string that holds no separator is a suffix of the last piece
of the split string. -/
theorem suffix_getLastD_split (sep : Char) (s suf : Str) (hsuf : suf <:+ s) (hsep : sep ∉ suf) :
    suf <:+ (split sep s).getLastD [] := by
  obtain ⟨dir, hs, -, hdir⟩ := split_getLastD sep s
  rcases hdir with rfl | ⟨dir0, rfl⟩
  · have hleaf : (split sep s).getLastD [] = s := by simpa using hs.symm
    rw [hleaf]
    exact hsuf
  · rw [hs, List.append_assoc] at hsuf
    exact suffix_after_sep sep dir0 _ suf hsuf hsep

/-- Two suffixes of one string: the shorter is a suffix of the longer, so a
string ending in `t` ends in `u` only if `t` does, when `u` is no longer. -/
theorem endsWith_of_endsWith (s t u : Str) (ht : t <:+ s) (hu : u <:+ s)
    (hlen : u.length ≤ t.length) : u <:+ t :=
  List.suffix_of_suffix_length_le hu ht hlen

/-! ## The pieces of the hook -/

/-- The new request ends in the file name it was built from. -/
theorem suffix_getPreferredRequest (request : Request) (fileName : Str) :
    fileName <:+ getPreferredRequest request fileName := by
  simp only [getPreferredRequest, List.foldl_append, List.foldl_cons, List.foldl_nil]
  exact List.suffix_append _ _

/-- The preferred file name ends in every separator-free suffix of the request. -/
theorem suffix_getPreferredFileName (request : Request) (pfx suf : Str)
    (hsuf : suf <:+ request.request) (hsep : '/' ∉ suf) :
    suf <:+ getPreferredFileName request pfx := by
  have h := suffix_getLastD_split '/' request.request suf hsuf hsep
  simp only [getPreferredFileName]
  exact h.trans (List.suffix_append _ _)

theorem matchDotSlash_some (s rest : Str) (h : matchDotSlash s = some rest) :
    s = '.' :: '/' :: rest := by
  match s, h with
  | c₁ :: c₂ :: r, h =>
    simp only [matchDotSlash] at h
    split at h
    · rename_i hc
      simp only [Option.some.injEq] at h
      rw [hc.1, hc.2, h]
    · exact absurd h (by simp)

theorem matchAfterDotPlus_some (cs rest : Str) (h : matchAfterDotPlus cs = some rest) :
    ∃ pre, cs = pre ++ '.' :: '/' :: rest := by
  induction cs with
  | nil => simp [matchAfterDotPlus] at h
  | cons c cs ih =>
    simp only [matchAfterDotPlus] at h
    split at h
    · rename_i r hr
      split at hr
      · exact absurd hr (by simp)
      · simp only [Option.some.injEq] at h
        obtain ⟨pre, hpre⟩ := ih (by rw [hr, h])
        exact ⟨c :: pre, by rw [hpre]; rfl⟩
    · exact ⟨[], by rw [matchDotSlash_some _ _ h]; rfl⟩

/-- What `replace` leaves: the string itself, or what follows one of its `/`. -/
theorem replaceTraversals_cases (s : Str) :
    replaceTraversals s = s ∨ ∃ pre, s = pre ++ '/' :: replaceTraversals s := by
  unfold replaceTraversals
  split
  · exact Or.inl rfl
  · rename_i c cs
    split
    · exact Or.inl rfl
    · split
      · rename_i rest hrest
        obtain ⟨pre, hpre⟩ := matchAfterDotPlus_some cs rest hrest
        exact Or.inr ⟨c :: pre ++ ['.'], by rw [hpre]; simp⟩
      · exact Or.inl rfl

theorem suffix_replaceTraversals (s suf : Str) (hsuf : suf <:+ s) (hsep : '/' ∉ suf) :
    suf <:+ replaceTraversals s := by
  rcases replaceTraversals_cases s with h | ⟨pre, h⟩
  · rw [h]; exact hsuf
  · rw [h] at hsuf
    exact suffix_after_sep '/' pre _ suf hsuf hsep

/-! ## `path.posix.join` keeps the end of its last argument -/

theorem foldl_normalizeStep_concat (allowAboveRoot : Bool) (segs : List Str) (seg : Str)
    (h0 : seg ≠ []) (h1 : seg ≠ ['.']) (h2 : seg ≠ ['.', '.']) :
    (segs ++ [seg]).foldl (normalizeStep allowAboveRoot) [] =
      segs.foldl (normalizeStep allowAboveRoot) [] ++ [seg] := by
  simp [List.foldl_append, normalizeStep, h0, h1, h2]

theorem suffix_intercalate_concat (sep : Char) (ls : List Str) (l : Str) :
    l <:+ [sep].intercalate (ls ++ [l]) := by
  by_cases hls : ls = []
  · subst hls; simp [List.intercalate]
  · rw [intercalate_concat sep ls l hls]
    exact ⟨[sep].intercalate ls ++ [sep], by simp⟩

theorem suffix_posixNormalize (path suf : Str) (hlen : 3 ≤ suf.length) (hsep : '/' ∉ suf)
    (hsuf : suf <:+ path) : suf <:+ posixNormalize path := by
  have hne : path ≠ [] := by
    rintro rfl
    have h0 : suf.length ≤ 0 := hsuf.length_le
    omega
  have hsplit : split '/' path = (split '/' path).dropLast ++ [(split '/' path).getLastD []] := by
    have hl : ∀ (l : List Str) (h : l ≠ []), l.getLast h = l.getLastD [] := by
      intro l h
      cases l with
      | nil => exact absurd rfl h
      | cons a as => rfl
    conv_lhs => rw [← List.dropLast_append_getLast (split_ne_nil '/' path), hl _ (split_ne_nil '/' path)]
  have hleaf := suffix_getLastD_split '/' path suf hsuf hsep
  have hleaflen := hleaf.length_le
  have hres : ∀ b, suf <:+ normalizeString path b := by
    intro b
    unfold normalizeString
    rw [hsplit, foldl_normalizeStep_concat b _ _
      (by intro h; rw [h, List.length_nil] at hleaflen; omega)
      (by intro h; rw [h, List.length_singleton] at hleaflen; omega)
      (by intro h; rw [h] at hleaflen; simp only [List.length_cons, List.length_nil] at hleaflen; omega)]
    exact hleaf.trans (suffix_intercalate_concat '/' _ _)
  have htrail : path.getLast? ≠ some '/' := by
    obtain ⟨t, ht⟩ := hsuf
    intro h
    have hsufne : suf ≠ [] := by
      intro h0; rw [h0, List.length_nil] at hlen; omega
    rw [← ht, List.getLast?_append_of_ne_nil _ hsufne] at h
    exact hsep (List.mem_of_getLast?_eq_some h)
  have hresne : ∀ b, normalizeString path b ≠ [] := by
    intro b h
    have h0 := (hres b).length_le
    rw [h, List.length_nil] at h0
    omega
  unfold posixNormalize
  simp only [if_neg hne, hresne, if_false, if_neg htrail]
  split
  · exact (hres _).trans (List.suffix_cons _ _)
  · exact hres _

/-- A separator-free suffix, three characters or longer, of the last argument
of `path.posix.join` is a suffix of the joined path. -/
theorem suffix_posixJoin (args : List Str) (leaf suf : Str) (hlen : 3 ≤ suf.length)
    (hsep : '/' ∉ suf) (hsuf : suf <:+ leaf) : suf <:+ posixJoin (args ++ [leaf]) := by
  have hleaf : leaf ≠ [] := by
    rintro rfl
    have h0 : suf.length ≤ 0 := hsuf.length_le
    omega
  have hfilter : (args ++ [leaf]).filter (fun arg => arg ≠ []) =
      args.filter (fun arg => arg ≠ []) ++ [leaf] := by
    simp [List.filter_append, List.filter_cons, hleaf]
  unfold posixJoin
  rw [hfilter]
  split
  · rename_i h
    simp at h
  · apply suffix_posixNormalize _ _ hlen hsep
    exact hsuf.trans (suffix_intercalate_concat '/' _ _)

theorem foldl_chunks_of_ne_nil (acc : Str) (chunks : List Str) (hacc : acc ≠ []) :
    chunks.foldl
        (fun newRequest chunk =>
          (if newRequest ≠ [] then newRequest ++ ['/'] else newRequest) ++ chunk) acc =
      ['/'].intercalate (acc :: chunks) := by
  induction chunks generalizing acc with
  | nil => simp [List.intercalate]
  | cons chunk chunks ih =>
    rw [List.foldl_cons, if_pos hacc, ih _ (by simp [hacc])]
    cases chunks <;> simp [List.intercalate]

/-- When the request does not start with `/`, the loop of `getPreferredRequest`
is a join with `/`: the pieces of the request, the last one replaced by the
file name. -/
theorem getPreferredRequest_eq_intercalate (request : Request) (fileName : Str)
    (hhead : request.request.head? ≠ some '/') :
    getPreferredRequest request fileName =
      ['/'].intercalate ((split '/' request.request).dropLast ++ [fileName]) := by
  unfold getPreferredRequest
  cases hs : split '/' request.request with
  | nil => exact absurd hs (split_ne_nil _ _)
  | cons a as =>
    cases as with
    | nil => simp [List.intercalate]
    | cons b bs =>
      have ha : a ≠ [] := by
        rintro rfl
        have hr := intercalate_split '/' request.request
        rw [hs] at hr
        rw [← hr] at hhead
        simp [List.intercalate] at hhead
      simp only [List.dropLast_cons₂, List.cons_append, List.foldl_cons]
      simp only [ne_eq, not_true_eq_false, if_false, List.nil_append]
      exact foldl_chunks_of_ne_nil a _ ha

/-- When the request does not start with `/` and the file name holds no `/`,
the new request splits into the pieces of the request with the last one
replaced by the file name. -/
theorem split_getPreferredRequest (request : Request) (fileName : Str)
    (hhead : request.request.head? ≠ some '/') (hname : '/' ∉ fileName) :
    split '/' (getPreferredRequest request fileName) =
      (split '/' request.request).dropLast ++ [fileName] := by
  rw [getPreferredRequest_eq_intercalate request fileName hhead]
  apply split_intercalate
  · intro l hl
    rcases List.mem_append.mp hl with h | h
    · exact not_mem_of_mem_split '/' request.request l (List.dropLast_subset _ h)
    · rw [List.mem_singleton.mp h]; exact hname
  · simp

/-! ## The hook -/

theorem isSupported_iff (request : Request) :
    isSupported request = true ↔
      (endsWith request.request "component".toList = true ∨
        endsWith request.request "component.html".toList = true ∨
        endsWith request.request "component.ts".toList = true ∨
        endsWith request.request "component.js".toList = true ∨
        endsWith request.request "component.scss".toList = true ∨
        endsWith request.request "component.css".toList = true) := by
  simp only [isSupported, Bool.or_eq_true, or_assoc]

/-- The hook on a supported request with a non-empty prefix: the probes of
`doesFileExist`, then one call, `doResolve` when the probe succeeded and
`callback` when it did not. -/
theorem hook_supported (join : List Str → Str) (existsSync : Str → Bool) (pfx : Str)
    (request : Request) (hpfx : pfx ≠ []) (hsup : isSupported request = true) :
    hook join existsSync (some pfx) request =
      ⟨(doesFileExist existsSync (getFilePath join
            (getPreferredRequest request (getPreferredFileName request pfx)) request.path)).2 ++
          [if (doesFileExist existsSync (getFilePath join
              (getPreferredRequest request (getPreferredFileName request pfx))
              request.path)).1 = true then
            Call.doResolve "resolve".toList
              { path := request.path
                request := getPreferredRequest request (getPreferredFileName request pfx)
                query := request.query
                directory := request.directory }
              ("Path swapped: ".toList ++ request.request ++ "-->".toList ++
                "New Path: ".toList ++
                getPreferredRequest request (getPreferredFileName request pfx))
          else Call.callback],
        request⟩ := by
  simp only [hook, hpfx, hsup, decide_False, Bool.not_true, Bool.or_false, Bool.false_eq_true,
    if_false]
  split <;> rfl

theorem pipelineCalls_append (xs ys : List Call) :
    pipelineCalls (xs ++ ys) = pipelineCalls xs ++ pipelineCalls ys := by
  simp [pipelineCalls, List.filter_append]

theorem pipelineCalls_doesFileExist (existsSync : Str → Bool) (filePath : Str) :
    pipelineCalls (doesFileExist existsSync filePath).2 = [] := by
  unfold doesFileExist
  split
  · rfl
  · split <;> rfl

/-- C1: for a request ending in one of the six suffixes, a non-empty prefix and
a filesystem on which the probe of the preferred candidate succeeds, the one
call the hook makes on the pipeline is `resolver.doResolve` with a new request
that has the path, query and directory of the original and
`getPreferredRequest(request, getPreferredFileName(request, prefix))` as its
request. -/
theorem hook_redirects_when_probe_succeeds (join : List Str → Str) (existsSync : Str → Bool)
    (pfx : Str) (request : Request)
    (hsuffix : endsWith request.request "component".toList = true ∨
      endsWith request.request "component.html".toList = true ∨
      endsWith request.request "component.ts".toList = true ∨
      endsWith request.request "component.js".toList = true ∨
      endsWith request.request "component.scss".toList = true ∨
      endsWith request.request "component.css".toList = true)
    (hpfx : pfx ≠ [])
    (hprobe : (doesFileExist existsSync (getFilePath join
      (getPreferredRequest request (getPreferredFileName request pfx)) request.path)).1 = true) :
    pipelineCalls (hook join existsSync (some pfx) request).calls =
      [Call.doResolve "resolve".toList
        { path := request.path
          request := getPreferredRequest request (getPreferredFileName request pfx)
          query := request.query
          directory := request.directory }
        ("Path swapped: ".toList ++ request.request ++ "-->".toList ++ "New Path: ".toList ++
          getPreferredRequest request (getPreferredFileName request pfx))] := by
  rw [hook_supported join existsSync pfx request hpfx ((isSupported_iff request).mpr hsuffix)]
  simp only [pipelineCalls_append, pipelineCalls_doesFileExist, hprobe, if_true, List.nil_append]
  rfl

/-- C1 at the example of the specification: prefix `mobile`, request
`./widget.component` from `/app/src/feature`, and
`/app/src/feature/mobile.widget.component.ts` the only file on disk: the hook
redirects to `./mobile.widget.component`. -/
theorem hook_redirects_widget_component :
    (doesFileExist (fun p => decide (p = "/app/src/feature/mobile.widget.component.ts".toList))
      (getFilePath posixJoin
        (getPreferredRequest ⟨"/app/src/feature".toList, "./widget.component".toList, [], false⟩
          (getPreferredFileName
            ⟨"/app/src/feature".toList, "./widget.component".toList, [], false⟩
            "mobile".toList))
        "/app/src/feature".toList)).1 = true ∧
    pipelineCalls (hook posixJoin
        (fun p => decide (p = "/app/src/feature/mobile.widget.component.ts".toList))
        (some "mobile".toList)
        ⟨"/app/src/feature".toList, "./widget.component".toList, [], false⟩).calls =
      [Call.doResolve "resolve".toList
        ⟨"/app/src/feature".toList, "./mobile.widget.component".toList, [], false⟩
        "Path swapped: ./widget.component-->New Path: ./mobile.widget.component".toList] :=
  ⟨by decide,
    (hook_redirects_when_probe_succeeds posixJoin
      (fun p => decide (p = "/app/src/feature/mobile.widget.component.ts".toList))
      "mobile".toList ⟨"/app/src/feature".toList, "./widget.component".toList, [], false⟩
      (by decide) (by decide) (by decide)).trans (by decide)⟩

/-- A separator-free suffix of the request, three characters or longer, is a
suffix of the candidate path on POSIX. -/
theorem suffix_candidatePath (pfx : Str) (request : Request) (suf : Str)
    (hlen : 3 ≤ suf.length) (hsep : '/' ∉ suf) (hsuf : suf <:+ request.request) :
    suf <:+ candidatePath posixJoin pfx request := by
  have h1 := (suffix_getPreferredFileName request pfx suf hsuf hsep).trans
    (suffix_getPreferredRequest request (getPreferredFileName request pfx))
  have h2 := suffix_replaceTraversals _ suf h1 hsep
  exact suffix_posixJoin _ _ suf hlen hsep h2

/-- On a path with one of the three style and template extensions,
`doesFileExist` asks for that very path. -/
theorem doesFileExist_exact (existsSync : Str → Bool) (filePath : Str)
    (hext : endsWith filePath ".html".toList = true ∨ endsWith filePath ".scss".toList = true ∨
      endsWith filePath ".css".toList = true) :
    doesFileExist existsSync filePath = (existsSync filePath, [Call.existsSync filePath]) := by
  have h : (endsWith filePath ".html".toList || endsWith filePath ".scss".toList ||
      endsWith filePath ".css".toList) = true := by
    simp only [Bool.or_eq_true, or_assoc]
    exact hext
  simp only [doesFileExist, h, if_true]

/-- On any other path `doesFileExist` asks for the path with `.ts` appended,
and for the path with `.js` appended when the first is absent. -/
theorem doesFileExist_source (existsSync : Str → Bool) (filePath : Str)
    (h1 : endsWith filePath ".html".toList = false)
    (h2 : endsWith filePath ".scss".toList = false)
    (h3 : endsWith filePath ".css".toList = false) :
    doesFileExist existsSync filePath =
      if existsSync (filePath ++ ".ts".toList) = true then
        (true, [Call.existsSync (filePath ++ ".ts".toList)])
      else
        (existsSync (filePath ++ ".js".toList),
          [Call.existsSync (filePath ++ ".ts".toList),
            Call.existsSync (filePath ++ ".js".toList)]) := by
  simp only [doesFileExist, h1, h2, h3, Bool.or_self, Bool.false_eq_true, if_false]

/-- A path ending in `component` has none of the three style and template
extensions. -/
theorem not_endsWith_ext_of_component (filePath : Str)
    (h : "component".toList <:+ filePath) :
    endsWith filePath ".html".toList = false ∧ endsWith filePath ".scss".toList = false ∧
      endsWith filePath ".css".toList = false := by
  have key : ∀ ext : Str, ext.length ≤ 9 → endsWith "component".toList ext = false →
      endsWith filePath ext = false := by
    intro ext hlen hno
    cases hc : endsWith filePath ext with
    | false => rfl
    | true =>
      have hsuf := (endsWith_iff filePath ext).mp hc
      have := endsWith_of_endsWith filePath "component".toList ext h hsuf hlen
      rw [← endsWith_iff, hno] at this
      exact absurd this (by simp)
  exact ⟨key _ (by decide) (by decide), key _ (by decide) (by decide),
    key _ (by decide) (by decide)⟩

/-- C2: for a request ending in bare `component` and a non-empty prefix, when
neither the candidate path with `.ts` nor the candidate path with `.js` exists,
the hook asks for those two paths, calls `callback()` and never `doResolve`,
and the request object is as it was. -/
theorem hook_passes_through_without_sibling (existsSync : Str → Bool) (pfx : Str)
    (request : Request)
    (hsource : endsWith request.request "component".toList = true)
    (hpfx : pfx ≠ [])
    (hts : existsSync (candidatePath posixJoin pfx request ++ ".ts".toList) = false)
    (hjs : existsSync (candidatePath posixJoin pfx request ++ ".js".toList) = false) :
    (hook posixJoin existsSync (some pfx) request).calls =
        [Call.existsSync (candidatePath posixJoin pfx request ++ ".ts".toList),
          Call.existsSync (candidatePath posixJoin pfx request ++ ".js".toList),
          Call.callback] ∧
      (∀ target newRequest message,
        Call.doResolve target newRequest message ∉
          (hook posixJoin existsSync (some pfx) request).calls) ∧
      (hook posixJoin existsSync (some pfx) request).request = request := by
  have hsup : isSupported request = true := (isSupported_iff request).mpr (Or.inl hsource)
  have hcand : "component".toList <:+ candidatePath posixJoin pfx request :=
    suffix_candidatePath pfx request _ (by decide) (by decide)
      ((endsWith_iff _ _).mp hsource)
  obtain ⟨e1, e2, e3⟩ := not_endsWith_ext_of_component _ hcand
  have hprobe := doesFileExist_source existsSync (candidatePath posixJoin pfx request) e1 e2 e3
  rw [hts, hjs] at hprobe
  simp only [Bool.false_eq_true, if_false] at hprobe
  have hcalls : (hook posixJoin existsSync (some pfx) request).calls =
      [Call.existsSync (candidatePath posixJoin pfx request ++ ".ts".toList),
        Call.existsSync (candidatePath posixJoin pfx request ++ ".js".toList),
        Call.callback] := by
    rw [hook_supported posixJoin existsSync pfx request hpfx hsup]
    unfold candidatePath at hprobe
    simp only [hprobe, Bool.false_eq_true, if_false]
    rfl
  refine ⟨hcalls, ?_, ?_⟩
  · intro target newRequest message hmem
    rw [hcalls] at hmem
    simp at hmem
  · rw [hook_supported posixJoin existsSync pfx request hpfx hsup]

/-- C2 at `./widget.component` with prefix `mobile`, when only the requested
file itself is on disk. -/
theorem hook_passes_through_widget_component :
    (hook posixJoin (fun p => decide (p = "/app/src/feature/widget.component.ts".toList))
        (some "mobile".toList)
        ⟨"/app/src/feature".toList, "./widget.component".toList, [], false⟩).calls =
      [Call.existsSync "/app/src/feature/mobile.widget.component.ts".toList,
        Call.existsSync "/app/src/feature/mobile.widget.component.js".toList,
        Call.callback] :=
  (hook_passes_through_without_sibling
    (fun p => decide (p = "/app/src/feature/widget.component.ts".toList)) "mobile".toList
    ⟨"/app/src/feature".toList, "./widget.component".toList, [], false⟩
    (by decide) (by decide) (by decide) (by decide)).1.trans (by decide)

/-- C3: when `preferredFilePrefix` is undefined or the empty string, the hook
calls `callback()` and nothing else, whatever the request and the filesystem. -/
theorem hook_passes_through_without_preferred_name (join : List Str → Str)
    (existsSync : Str → Bool) (request : Request) :
    hook join existsSync none request = ⟨[Call.callback], request⟩ ∧
      hook join existsSync (some []) request = ⟨[Call.callback], request⟩ := by
  constructor <;> simp [hook]

/-- C4: a request ending in none of the six suffixes is passed through for
every prefix: on every filesystem the hook makes the single call `callback()`,
so no `fs.existsSync` and no `doResolve`, and any two filesystems give the
same result. -/
theorem hook_passes_through_unsupported (join : List Str → Str) (pfx : Option Str)
    (request : Request)
    (h1 : endsWith request.request "component".toList = false)
    (h2 : endsWith request.request "component.html".toList = false)
    (h3 : endsWith request.request "component.ts".toList = false)
    (h4 : endsWith request.request "component.js".toList = false)
    (h5 : endsWith request.request "component.scss".toList = false)
    (h6 : endsWith request.request "component.css".toList = false) :
    (∀ existsSync : Str → Bool, hook join existsSync pfx request = ⟨[Call.callback], request⟩) ∧
      ∀ existsSync₁ existsSync₂ : Str → Bool,
        hook join existsSync₁ pfx request = hook join existsSync₂ pfx request := by
  have h : ∀ existsSync : Str → Bool,
      hook join existsSync pfx request = ⟨[Call.callback], request⟩ := by
    intro existsSync
    cases pfx with
    | none => rfl
    | some p =>
      have hsup : isSupported request = false := by
        simp only [isSupported, h1, h2, h3, h4, h5, h6, Bool.or_self]
      simp only [hook, hsup, Bool.not_false, Bool.or_true, if_true]
  exact ⟨h, fun e₁ e₂ => (h e₁).trans (h e₂).symm⟩

/-- C4 at `./app.module` with prefix `mobile`: passed through on a filesystem
where every path exists. -/
theorem hook_passes_through_app_module :
    hook posixJoin (fun _ => true) (some "mobile".toList)
        ⟨"/app/src".toList, "./app.module".toList, [], false⟩ =
      ⟨[Call.callback], ⟨"/app/src".toList, "./app.module".toList, [], false⟩⟩ :=
  (hook_passes_through_unsupported posixJoin (some "mobile".toList)
    ⟨"/app/src".toList, "./app.module".toList, [], false⟩
    (by decide) (by decide) (by decide) (by decide) (by decide) (by decide)).1 (fun _ => true)

/-- C5: the example of the specification on the code.  The parent path
`/app/src/feature` holds no backslash, so `split('\\')` leaves it in one piece,
the single `..` of `../shared/x.component.html` pops that piece, and the result
is `shared/x.component.html`, not `/app/src/shared/x.component.html`.  A parent
written with backslashes is split, and loses its last segment only. -/
theorem getFilePath_posix_parent_lost :
    split '\\' "/app/src/feature".toList = ["/app/src/feature".toList] ∧
      getFilePath posixJoin "../shared/x.component.html".toList "/app/src/feature".toList =
        "shared/x.component.html".toList ∧
      getFilePath posixJoin "../shared/x.component.html".toList "/app/src/feature".toList ≠
        "/app/src/shared/x.component.html".toList ∧
      getFilePath posixJoin "../shared/x.component.html".toList "C:\\app\\src\\feature".toList =
        "C:/app/src/shared/x.component.html".toList := by
  decide

/-- C6: a request that starts with `/`.  The loop adds the `/` only when the
string built so far is not empty, so the empty first segment leaves no trace:
the result of `/abs/x.component` is `abs/mobile.x.component`, two segments
where the request had three. -/
theorem getPreferredRequest_drops_leading_slash :
    getPreferredRequest ⟨[], "/abs/x.component".toList, [], false⟩ "mobile.x.component".toList =
        "abs/mobile.x.component".toList ∧
      split '/' (getPreferredRequest ⟨[], "/abs/x.component".toList, [], false⟩
          "mobile.x.component".toList) =
        ["abs".toList, "mobile.x.component".toList] ∧
      (split '/' "/abs/x.component".toList).dropLast ++ ["mobile.x.component".toList] =
        [[], "abs".toList, "mobile.x.component".toList] := by
  decide

/-- C7: `getPreferredFileName` is the prefix, a dot and the last piece of the
request split on `/`, which is what follows the last `/` of the request (the
whole request when it has none); `./foo/bar.component.ts` with prefix `mobile`
gives `mobile.bar.component.ts`, and `getPreferredRequest` on that name gives
`./foo/mobile.bar.component.ts`. -/
theorem getPreferredFileName_eq :
    (∀ (request : Request) (pfx : Str),
      getPreferredFileName request pfx =
          pfx ++ ['.'] ++ (split '/' request.request).getLastD [] ∧
        ∃ dir, request.request = dir ++ (split '/' request.request).getLastD [] ∧
          '/' ∉ (split '/' request.request).getLastD [] ∧
          (dir = [] ∨ ∃ dir0, dir = dir0 ++ ['/'])) ∧
      getPreferredFileName ⟨[], "./foo/bar.component.ts".toList, [], false⟩ "mobile".toList =
        "mobile.bar.component.ts".toList ∧
      getPreferredRequest ⟨[], "./foo/bar.component.ts".toList, [], false⟩
          (getPreferredFileName ⟨[], "./foo/bar.component.ts".toList, [], false⟩
            "mobile".toList) =
        "./foo/mobile.bar.component.ts".toList := by
  refine ⟨fun request pfx => ⟨rfl, split_getLastD '/' request.request⟩, ?_, ?_⟩ <;> decide

/-- C8 as stated fails: with `mobile.widget.component.ts` and
`mobile.mobile.widget.component.ts` both on disk, the hook redirects
`./widget.component` to `./mobile.widget.component`, which ends in `component`
again, and on that request the hook probes the further-prefixed file and
redirects a second time. -/
theorem redirected_request_redirects_again :
    Call.doResolve "resolve".toList
        ⟨"/app/src".toList, "./mobile.widget.component".toList, [], false⟩
        "Path swapped: ./widget.component-->New Path: ./mobile.widget.component".toList ∈
      (hook posixJoin
        (fun p => decide (p = "/app/src/mobile.widget.component.ts".toList ∨
          p = "/app/src/mobile.mobile.widget.component.ts".toList))
        (some "mobile".toList)
        ⟨"/app/src".toList, "./widget.component".toList, [], false⟩).calls ∧
      endsWith "./mobile.widget.component".toList "component".toList = true ∧
      (hook posixJoin
        (fun p => decide (p = "/app/src/mobile.widget.component.ts".toList ∨
          p = "/app/src/mobile.mobile.widget.component.ts".toList))
        (some "mobile".toList)
        ⟨"/app/src".toList, "./mobile.widget.component".toList, [], false⟩).calls =
        [Call.existsSync "/app/src/mobile.mobile.widget.component.ts".toList,
          Call.doResolve "resolve".toList
            ⟨"/app/src".toList, "./mobile.mobile.widget.component".toList, [], false⟩
            ("Path swapped: ./mobile.widget.component-->".toList ++
              "New Path: ./mobile.mobile.widget.component".toList)] := by
  decide

theorem mem_doesFileExist_calls (existsSync : Str → Bool) (filePath : Str) (call : Call)
    (h : call ∈ (doesFileExist existsSync filePath).2) : ∃ path, call = Call.existsSync path := by
  unfold doesFileExist at h
  split at h
  · simp only [List.mem_singleton] at h
    exact ⟨_, h⟩
  · split at h
    · simp only [List.mem_singleton] at h
      exact ⟨_, h⟩
    · simp only [List.mem_cons, List.mem_singleton, List.not_mem_nil, or_false] at h
      rcases h with h | h <;> exact ⟨_, h⟩

theorem doesFileExist_calls_ne_nil (existsSync : Str → Bool) (filePath : Str) :
    (doesFileExist existsSync filePath).2 ≠ [] := by
  unfold doesFileExist
  split
  · simp
  · split <;> simp

/-- When the hook calls `doResolve`, the request was supported, the prefix is
not empty, the probe succeeded and the new request is the preferred one. -/
theorem of_mem_hook_calls (join : List Str → Str) (existsSync : Str → Bool) (pfx : Str)
    (request newRequest : Request) (target message : Str)
    (h : Call.doResolve target newRequest message ∈
      (hook join existsSync (some pfx) request).calls) :
    pfx ≠ [] ∧ isSupported request = true ∧
      (doesFileExist existsSync (candidatePath join pfx request)).1 = true ∧
      newRequest =
        { path := request.path
          request := getPreferredRequest request (getPreferredFileName request pfx)
          query := request.query
          directory := request.directory } := by
  by_cases hpfx : pfx = []
  · subst hpfx
    simp [hook] at h
  · cases hsup : isSupported request with
    | false => simp [hook, hsup] at h
    | true =>
      rw [hook_supported join existsSync pfx request hpfx hsup] at h
      simp only [List.mem_append, List.mem_singleton] at h
      rcases h with h | h
      · obtain ⟨path, hpath⟩ := mem_doesFileExist_calls _ _ _ h
        exact absurd hpath (by simp)
      · split at h
        · rename_i hprobe
          simp only [Call.doResolve.injEq] at h
          exact ⟨hpfx, rfl, hprobe, h.2.1⟩
        · exact absurd h (by simp)

/-- C8, amended: a request the hook redirects to passes the filter again.  It
ends in every `/`-free suffix the original request ended in, among them the
trigger suffix, so on it the hook probes the candidate carrying the prefix
once more, and redirects a second time exactly when that probe succeeds. -/
theorem redirected_request_is_supported (join : List Str → Str) (existsSync : Str → Bool)
    (pfx : Str) (request newRequest : Request) (target message : Str)
    (hredirect : Call.doResolve target newRequest message ∈
      (hook join existsSync (some pfx) request).calls) :
    isSupported newRequest = true ∧
      (∀ suf : Str, '/' ∉ suf → endsWith request.request suf = true →
        endsWith newRequest.request suf = true) ∧
      (doesFileExist existsSync (candidatePath join pfx newRequest)).2 ≠ [] ∧
      (hook join existsSync (some pfx) newRequest).calls =
        (doesFileExist existsSync (candidatePath join pfx newRequest)).2 ++
          [if (doesFileExist existsSync (candidatePath join pfx newRequest)).1 = true then
            Call.doResolve "resolve".toList
              { path := newRequest.path
                request := getPreferredRequest newRequest (getPreferredFileName newRequest pfx)
                query := newRequest.query
                directory := newRequest.directory }
              ("Path swapped: ".toList ++ newRequest.request ++ "-->".toList ++
                "New Path: ".toList ++
                getPreferredRequest newRequest (getPreferredFileName newRequest pfx))
          else Call.callback] := by
  obtain ⟨hpfx, hsup, -, hnew⟩ := of_mem_hook_calls join existsSync pfx request newRequest
    target message hredirect
  have hkeep : ∀ suf : Str, '/' ∉ suf → endsWith request.request suf = true →
      endsWith newRequest.request suf = true := by
    intro suf hsep hsuf
    rw [endsWith_iff] at hsuf ⊢
    rw [hnew]
    exact (suffix_getPreferredFileName request pfx suf hsuf hsep).trans
      (suffix_getPreferredRequest request (getPreferredFileName request pfx))
  have hsup' : isSupported newRequest = true := by
    rw [isSupported_iff] at hsup ⊢
    rcases hsup with h | h | h | h | h | h
    · exact Or.inl (hkeep _ (by decide) h)
    · exact Or.inr (Or.inl (hkeep _ (by decide) h))
    · exact Or.inr (Or.inr (Or.inl (hkeep _ (by decide) h)))
    · exact Or.inr (Or.inr (Or.inr (Or.inl (hkeep _ (by decide) h))))
    · exact Or.inr (Or.inr (Or.inr (Or.inr (Or.inl (hkeep _ (by decide) h)))))
    · exact Or.inr (Or.inr (Or.inr (Or.inr (Or.inr (hkeep _ (by decide) h)))))
  refine ⟨hsup', hkeep, doesFileExist_calls_ne_nil _ _, ?_⟩
  rw [hook_supported join existsSync pfx newRequest hpfx hsup']
  rfl

/-- C8, amended, at `./widget.component` with prefix `mobile` and only
`mobile.widget.component.ts` on disk: the redirected request
`./mobile.widget.component` is supported, and the hook probes
`mobile.mobile.widget.component` with both extensions before it passes
through. -/
theorem redirected_widget_component_is_supported :
    isSupported ⟨"/app/src".toList, "./mobile.widget.component".toList, [], false⟩ = true ∧
      (hook posixJoin (fun p => decide (p = "/app/src/mobile.widget.component.ts".toList))
          (some "mobile".toList)
          ⟨"/app/src".toList, "./mobile.widget.component".toList, [], false⟩).calls =
        [Call.existsSync "/app/src/mobile.mobile.widget.component.ts".toList,
          Call.existsSync "/app/src/mobile.mobile.widget.component.js".toList,
          Call.callback] :=
  have h := redirected_request_is_supported posixJoin
    (fun p => decide (p = "/app/src/mobile.widget.component.ts".toList)) "mobile".toList
    ⟨"/app/src".toList, "./widget.component".toList, [], false⟩
    ⟨"/app/src".toList, "./mobile.widget.component".toList, [], false⟩
    "resolve".toList
    "Path swapped: ./widget.component-->New Path: ./mobile.widget.component".toList
    (by decide)
  ⟨h.1, h.2.2.2.trans (by decide)⟩

/-- C9: for a supported request ending in `.html`, `.scss` or `.css` and a
non-empty prefix, the hook asks `fs.existsSync` for the candidate path itself
and for nothing else; it redirects when that path exists and passes through
when it does not, whatever else is on disk. -/
theorem hook_style_template_probes_exact_path (existsSync : Str → Bool) (pfx : Str)
    (request : Request)
    (hsup : isSupported request = true)
    (hext : endsWith request.request ".html".toList = true ∨
      endsWith request.request ".scss".toList = true ∨
      endsWith request.request ".css".toList = true)
    (hpfx : pfx ≠ []) :
    (existsSync (candidatePath posixJoin pfx request) = true →
      (hook posixJoin existsSync (some pfx) request).calls =
        [Call.existsSync (candidatePath posixJoin pfx request),
          Call.doResolve "resolve".toList
            { path := request.path
              request := getPreferredRequest request (getPreferredFileName request pfx)
              query := request.query
              directory := request.directory }
            ("Path swapped: ".toList ++ request.request ++ "-->".toList ++
              "New Path: ".toList ++
              getPreferredRequest request (getPreferredFileName request pfx))]) ∧
      (existsSync (candidatePath posixJoin pfx request) = false →
        (hook posixJoin existsSync (some pfx) request).calls =
          [Call.existsSync (candidatePath posixJoin pfx request), Call.callback]) := by
  have hcand : endsWith (candidatePath posixJoin pfx request) ".html".toList = true ∨
      endsWith (candidatePath posixJoin pfx request) ".scss".toList = true ∨
      endsWith (candidatePath posixJoin pfx request) ".css".toList = true := by
    simp only [endsWith_iff] at hext ⊢
    rcases hext with h | h | h
    · exact Or.inl (suffix_candidatePath pfx request _ (by decide) (by decide) h)
    · exact Or.inr (Or.inl (suffix_candidatePath pfx request _ (by decide) (by decide) h))
    · exact Or.inr (Or.inr (suffix_candidatePath pfx request _ (by decide) (by decide) h))
  have hprobe := doesFileExist_exact existsSync _ hcand
  unfold candidatePath at hprobe
  rw [hook_supported posixJoin existsSync pfx request hpfx hsup]
  constructor
  · intro h
    unfold candidatePath at h ⊢
    simp only [hprobe, h, if_true]
    rfl
  · intro h
    unfold candidatePath at h ⊢
    simp only [hprobe, h, Bool.false_eq_true, if_false]
    rfl

/-- C9 at `./widget.component.scss` with prefix `mobile`: with
`mobile.widget.component.scss` on disk the hook redirects; with only
`mobile.widget.component.scss.ts` on disk it passes through. -/
theorem hook_widget_component_scss :
    (hook posixJoin (fun p => decide (p = "/app/src/mobile.widget.component.scss".toList))
          (some "mobile".toList)
          ⟨"/app/src".toList, "./widget.component.scss".toList, [], false⟩).calls =
        [Call.existsSync "/app/src/mobile.widget.component.scss".toList,
          Call.doResolve "resolve".toList
            ⟨"/app/src".toList, "./mobile.widget.component.scss".toList, [], false⟩
            ("Path swapped: ./widget.component.scss-->".toList ++
              "New Path: ./mobile.widget.component.scss".toList)] ∧
      (hook posixJoin (fun p => decide (p = "/app/src/mobile.widget.component.scss.ts".toList))
          (some "mobile".toList)
          ⟨"/app/src".toList, "./widget.component.scss".toList, [], false⟩).calls =
        [Call.existsSync "/app/src/mobile.widget.component.scss".toList, Call.callback] :=
  ⟨((hook_style_template_probes_exact_path
      (fun p => decide (p = "/app/src/mobile.widget.component.scss".toList)) "mobile".toList
      ⟨"/app/src".toList, "./widget.component.scss".toList, [], false⟩
      (by decide) (by decide) (by decide)).1 (by decide)).trans (by decide),
    ((hook_style_template_probes_exact_path
      (fun p => decide (p = "/app/src/mobile.widget.component.scss.ts".toList)) "mobile".toList
      ⟨"/app/src".toList, "./widget.component.scss".toList, [], false⟩
      (by decide) (by decide) (by decide)).2 (by decide)).trans (by decide)⟩

/-- C10: the request `./x.component.ts` with prefix `mobile`, when the sibling
`/app/src/mobile.x.component.ts` is on disk.  The candidate path is that file,
but it has none of the three style and template extensions, so `doesFileExist`
asks for it with `.ts` and with `.js` appended, finds neither, and the hook
passes through. -/
theorem hook_explicit_ts_passes_through :
    candidatePath posixJoin "mobile".toList
        ⟨"/app/src".toList, "./x.component.ts".toList, [], false⟩ =
      "/app/src/mobile.x.component.ts".toList ∧
    (hook posixJoin (fun p => decide (p = "/app/src/mobile.x.component.ts".toList))
        (some "mobile".toList)
        ⟨"/app/src".toList, "./x.component.ts".toList, [], false⟩).calls =
      [Call.existsSync "/app/src/mobile.x.component.ts.ts".toList,
        Call.existsSync "/app/src/mobile.x.component.ts.js".toList,
        Call.callback] := by
  decide

/-! ## One decision per invocation -/

/-- The calls of the hook on the pipeline are one `callback()` or one
`doResolve`. -/
theorem pipelineCalls_hook (join : List Str → Str) (existsSync : Str → Bool)
    (preferredFilePrefix : Option Str) (request : Request) :
    pipelineCalls (hook join existsSync preferredFilePrefix request).calls = [Call.callback] ∨
      ∃ newRequest message,
        pipelineCalls (hook join existsSync preferredFilePrefix request).calls =
          [Call.doResolve "resolve".toList newRequest message] := by
  cases preferredFilePrefix with
  | none => exact Or.inl rfl
  | some pfx =>
    by_cases hpfx : pfx = []
    · subst hpfx
      exact Or.inl (by simp [hook, pipelineCalls])
    · cases hsup : isSupported request with
      | false => exact Or.inl (by simp [hook, hsup, pipelineCalls])
      | true =>
        rw [hook_supported join existsSync pfx request hpfx hsup]
        simp only [pipelineCalls_append, pipelineCalls_doesFileExist, List.nil_append]
        split
        · exact Or.inr ⟨_, _, rfl⟩
        · exact Or.inl rfl

theorem existsSyncOf_absentOnError (fs : Str → QueryResult) :
    existsSyncOf (absentOnError fs) = existsSyncOf fs := by
  funext path
  unfold existsSyncOf absentOnError
  cases fs path <;> rfl

/-- C11 as stated fails: when the query for
`/app/src/mobile.widget.component.ts` fails with an access error and no other
path is there, the hook on `./widget.component` asks for the `.ts` and the
`.js` candidate and calls `callback()`: it passes through. -/
theorem hook_access_error_passes_through :
    (hook posixJoin
        (existsSyncOf fun p =>
          if p = "/app/src/mobile.widget.component.ts".toList then QueryResult.accessError
          else QueryResult.absent)
        (some "mobile".toList)
        ⟨"/app/src".toList, "./widget.component".toList, [], false⟩).calls =
      [Call.existsSync "/app/src/mobile.widget.component.ts".toList,
        Call.existsSync "/app/src/mobile.widget.component.js".toList,
        Call.callback] := by
  decide

/-- C11, amended: a query that fails with an access error is answered `false`
by `fs.existsSync`, and the hook decides as it does when the path is absent:
its result is the one on the filesystem where the failing paths are absent,
and it is a decision, one `callback()` or one `doResolve`. -/
theorem hook_access_error_as_absent (join : List Str → Str) (fs : Str → QueryResult)
    (preferredFilePrefix : Option Str) (request : Request) :
    (∀ path, fs path = QueryResult.accessError → existsSyncOf fs path = false) ∧
      hook join (existsSyncOf fs) preferredFilePrefix request =
        hook join (existsSyncOf (absentOnError fs)) preferredFilePrefix request ∧
      (pipelineCalls (hook join (existsSyncOf fs) preferredFilePrefix request).calls =
          [Call.callback] ∨
        ∃ newRequest message,
          pipelineCalls (hook join (existsSyncOf fs) preferredFilePrefix request).calls =
            [Call.doResolve "resolve".toList newRequest message]) := by
  refine ⟨?_, ?_, pipelineCalls_hook join _ preferredFilePrefix request⟩
  · intro path h
    simp only [existsSyncOf, h]
  · rw [existsSyncOf_absentOnError]

/-- C11, amended, at `./widget.component` with prefix `mobile`, when the query
for `/app/src/mobile.widget.component.ts` fails and
`/app/src/mobile.widget.component.js` is there: `fs.existsSync` answers false
for the first, and the hook redirects on the second. -/
theorem hook_access_error_then_js :
    existsSyncOf
        (fun p =>
          if p = "/app/src/mobile.widget.component.ts".toList then QueryResult.accessError
          else if p = "/app/src/mobile.widget.component.js".toList then QueryResult.present
          else QueryResult.absent)
        "/app/src/mobile.widget.component.ts".toList = false ∧
      pipelineCalls (hook posixJoin
        (existsSyncOf fun p =>
          if p = "/app/src/mobile.widget.component.ts".toList then QueryResult.accessError
          else if p = "/app/src/mobile.widget.component.js".toList then QueryResult.present
          else QueryResult.absent)
        (some "mobile".toList)
        ⟨"/app/src".toList, "./widget.component".toList, [], false⟩).calls =
      [Call.doResolve "resolve".toList
        ⟨"/app/src".toList, "./mobile.widget.component".toList, [], false⟩
        "Path swapped: ./widget.component-->New Path: ./mobile.widget.component".toList] :=
  ⟨(hook_access_error_as_absent posixJoin
      (fun p =>
        if p = "/app/src/mobile.widget.component.ts".toList then QueryResult.accessError
        else if p = "/app/src/mobile.widget.component.js".toList then QueryResult.present
        else QueryResult.absent)
      (some "mobile".toList)
      ⟨"/app/src".toList, "./widget.component".toList, [], false⟩).1
      "/app/src/mobile.widget.component.ts".toList (by decide),
    by decide⟩

theorem pipelineCallsOf_probeCalls {κ : Type} (calls : List Call) :
    pipelineCallsOf (probeCalls calls : List (CallOf κ)) = [] := by
  induction calls with
  | nil => rfl
  | cons call calls ih =>
    cases call with
    | existsSync path => simpa [probeCalls, pipelineCallsOf] using ih
    | callback => simpa [probeCalls] using ih
    | doResolve target r message => simpa [probeCalls] using ih

theorem pipelineCallsOf_probeCalls_doResolve {κ : Type} (calls : List Call) (target : Str)
    (request : RequestValue) (message : Str) (fn : κ) :
    pipelineCallsOf (probeCalls calls ++ [CallOf.doResolve target request message fn]) =
      [CallOf.doResolve target request message fn] := by
  have h := pipelineCallsOf_probeCalls (κ := κ) calls
  unfold pipelineCallsOf at h ⊢
  rw [List.filter_append, h]
  rfl

theorem pipelineCallsOf_probeCalls_callback {κ : Type} (calls : List Call) (fn : κ) :
    pipelineCallsOf (probeCalls calls ++ [CallOf.callback fn]) = [CallOf.callback fn] := by
  have h := pipelineCallsOf_probeCalls (κ := κ) calls
  unfold pipelineCallsOf at h ⊢
  rw [List.filter_append, h]
  rfl

/-- C12 as stated fails: the request `./widget.component` with `path: false`
and prefix `mobile` is supported, `getFilePath` throws at `parentPath.split`,
and the hook has called neither `callback` nor `doResolve`. -/
theorem hookOfValue_throws_without_string_path :
    hookOfValue posixJoin (fun _ => true) (some "mobile".toList)
        ⟨none, "./widget.component".toList, [], false⟩ () =
      ⟨[], true⟩ := by
  decide

/-- C12, amended: on a request whose request and path fields are strings, for
every prefix, filesystem and callback, the hook does not throw and the calls
it makes on the pipeline are exactly one: the callback it was handed, called
without arguments, or `resolver.doResolve` with that same callback as last
argument; never both and never none.  The hook throws only on a request whose
path is not a string, and then it has made no call. -/
theorem hookOfValue_decides_exactly_once {κ : Type} (join : List Str → Str)
    (existsSync : Str → Bool) (preferredFilePrefix : Option Str) (request : RequestValue)
    (callback : κ) :
    (∀ parentPath, request.path = some parentPath →
      (hookOfValue join existsSync preferredFilePrefix request callback).threw = false ∧
        (pipelineCallsOf (hookOfValue join existsSync preferredFilePrefix request callback).calls =
            [CallOf.callback callback] ∨
          ∃ newRequest message,
            pipelineCallsOf
                (hookOfValue join existsSync preferredFilePrefix request callback).calls =
              [CallOf.doResolve "resolve".toList newRequest message callback]) ∧
        (pipelineCallsOf
          (hookOfValue join existsSync preferredFilePrefix request callback).calls).length = 1) ∧
      ((hookOfValue join existsSync preferredFilePrefix request callback).threw = true →
        request.path = none ∧
          (hookOfValue join existsSync preferredFilePrefix request callback).calls = []) := by
  cases preferredFilePrefix with
  | none =>
    refine ⟨fun _ _ => ⟨rfl, Or.inl rfl, rfl⟩, fun h => ?_⟩
    simp [hookOfValue] at h
  | some pfx =>
    unfold hookOfValue
    simp only
    split
    · refine ⟨fun _ _ => ⟨rfl, Or.inl rfl, rfl⟩, fun h => ?_⟩
      simp at h
    · cases hpath : request.path with
      | none =>
        refine ⟨fun parentPath h => ?_, fun _ => ⟨rfl, rfl⟩⟩
        simp at h
      | some parentPath =>
        simp only
        split
        · refine ⟨fun _ _ => ⟨rfl, ?_, ?_⟩, fun h => ?_⟩
          · exact Or.inr ⟨_, _, pipelineCallsOf_probeCalls_doResolve _ _ _ _ _⟩
          · rw [pipelineCallsOf_probeCalls_doResolve]
            rfl
          · simp at h
        · refine ⟨fun _ _ => ⟨rfl, ?_, ?_⟩, fun h => ?_⟩
          · exact Or.inl (pipelineCallsOf_probeCalls_callback _ _)
          · rw [pipelineCallsOf_probeCalls_callback]
            rfl
          · simp at h

/-- C12, amended, at `./widget.component` from `/app/src` with prefix `mobile`
and `mobile.widget.component.ts` on disk: the hook does not throw and hands
its callback to `doResolve`. -/
theorem hookOfValue_widget_component :
    (hookOfValue posixJoin (fun p => decide (p = "/app/src/mobile.widget.component.ts".toList))
        (some "mobile".toList)
        ⟨some "/app/src".toList, "./widget.component".toList, [], false⟩ ()).threw = false ∧
      pipelineCallsOf (hookOfValue posixJoin
        (fun p => decide (p = "/app/src/mobile.widget.component.ts".toList))
        (some "mobile".toList)
        ⟨some "/app/src".toList, "./widget.component".toList, [], false⟩ ()).calls =
      [CallOf.doResolve "resolve".toList
        ⟨some "/app/src".toList, "./mobile.widget.component".toList, [], false⟩
        "Path swapped: ./widget.component-->New Path: ./mobile.widget.component".toList ()] :=
  ⟨((hookOfValue_decides_exactly_once posixJoin
      (fun p => decide (p = "/app/src/mobile.widget.component.ts".toList))
      (some "mobile".toList)
      ⟨some "/app/src".toList, "./widget.component".toList, [], false⟩ ()).1
      "/app/src".toList rfl).1,
    by decide⟩

/-! ## `getFilePath` -/

/-- The loop of `getFilePath` drops one parent segment from the end for every
leading `..` piece of the request, as long as there are segments. -/
theorem popTraversals_eq_take (splitRequest splitParentPath : List Str) :
    popTraversals splitRequest splitParentPath =
      splitParentPath.take (splitParentPath.length -
        (splitRequest.takeWhile fun el => decide (el = ['.', '.'])).length) := by
  induction splitRequest generalizing splitParentPath with
  | nil => simp [popTraversals]
  | cons el rest ih =>
    by_cases h : el = ['.', '.']
    · simp only [popTraversals, h, ne_eq, not_true_eq_false, if_false, List.takeWhile_cons,
        decide_True, if_true, List.length_cons]
      rw [ih, List.dropLast_eq_take, List.take_take, List.length_take]
      congr 1
      omega
    · simp [popTraversals, h, List.takeWhile_cons]

/-- C13: `getFilePath` is a total function, and when the request has more
leading `..` pieces than the parent path has segments, every parent segment is
popped and the result is `path.join` of the stripped request alone: on POSIX
the normalised stripped request, or `.` when that is empty. -/
theorem getFilePath_more_traversals_than_segments (join : List Str → Str)
    (relativeRequest parentPath : Str)
    (hmore : (split '\\' parentPath).length <
      ((split '/' relativeRequest).takeWhile fun el => decide (el = ['.', '.'])).length) :
    popTraversals (split '/' relativeRequest) (split '\\' parentPath) = [] ∧
      getFilePath join relativeRequest parentPath = join [replaceTraversals relativeRequest] ∧
      getFilePath posixJoin relativeRequest parentPath =
        (if replaceTraversals relativeRequest = [] then ['.']
          else posixNormalize (replaceTraversals relativeRequest)) := by
  have hpop : popTraversals (split '/' relativeRequest) (split '\\' parentPath) = [] := by
    rw [popTraversals_eq_take, Nat.sub_eq_zero_of_le (Nat.le_of_lt hmore), List.take_zero]
  refine ⟨hpop, ?_, ?_⟩
  · simp only [getFilePath, hpop, List.nil_append]
  · simp only [getFilePath, hpop, List.nil_append, posixJoin]
    by_cases h : replaceTraversals relativeRequest = []
    · simp [h]
    · simp [h, List.intercalate]

/-- C13 at `../../x.component` from the one-segment parent `app`: the result is
`x.component`. -/
theorem getFilePath_above_parent :
    (split '\\' "app".toList).length <
        ((split '/' "../../x.component".toList).takeWhile
          fun el => decide (el = ['.', '.'])).length ∧
      getFilePath posixJoin "../../x.component".toList "app".toList = "x.component".toList :=
  ⟨by decide,
    (getFilePath_more_traversals_than_segments posixJoin "../../x.component".toList
      "app".toList (by decide)).2.2.trans (by decide)⟩

/-- C14: the stripped request of `./a/b/../c.component`.  The request has no
leading `..`, so the loop pops nothing, but the greedy `.+` of the regular
expression reaches the last `./` of the string and `a/b/../` is stripped with
it; for `../a/./b.component` one segment is popped and three pieces are
stripped; a directory name ending in `.` is stripped as well. -/
theorem replaceTraversals_strips_past_ordinary_segments :
    replaceTraversals "./a/b/../c.component".toList = "c.component".toList ∧
      popTraversals (split '/' "./a/b/../c.component".toList) ["C:".toList, "app".toList] =
        ["C:".toList, "app".toList] ∧
      getFilePath posixJoin "./a/b/../c.component".toList "C:\\app".toList =
        "C:/app/c.component".toList ∧
      replaceTraversals "../a/./b.component".toList = "b.component".toList ∧
      popTraversals (split '/' "../a/./b.component".toList) ["C:".toList, "app".toList] =
        ["C:".toList] ∧
      getFilePath posixJoin "../a/./b.component".toList "C:\\app".toList =
        "C:/b.component".toList ∧
      replaceTraversals "./a./b.component".toList = "b.component".toList := by
  decide

/-- C15: on a path that does not end in `.html`, `.scss` or `.css`,
`doesFileExist` is true exactly when the path with `.ts` appended or the path
with `.js` appended exists; `fs.existsSync` is asked for nothing else, so two
filesystems that agree on those two paths give the same answer, whatever is at
the path itself. -/
theorem doesFileExist_appends_extension (existsSync : Str → Bool) (filePath : Str)
    (h1 : endsWith filePath ".html".toList = false)
    (h2 : endsWith filePath ".scss".toList = false)
    (h3 : endsWith filePath ".css".toList = false) :
    ((doesFileExist existsSync filePath).1 = true ↔
        existsSync (filePath ++ ".ts".toList) = true ∨
          existsSync (filePath ++ ".js".toList) = true) ∧
      (∀ call ∈ (doesFileExist existsSync filePath).2,
        call = Call.existsSync (filePath ++ ".ts".toList) ∨
          call = Call.existsSync (filePath ++ ".js".toList)) ∧
      ∀ existsSync' : Str → Bool,
        existsSync' (filePath ++ ".ts".toList) = existsSync (filePath ++ ".ts".toList) →
        existsSync' (filePath ++ ".js".toList) = existsSync (filePath ++ ".js".toList) →
        (doesFileExist existsSync' filePath).1 = (doesFileExist existsSync filePath).1 := by
  have hval : ∀ e : Str → Bool, (doesFileExist e filePath).1 =
      (e (filePath ++ ".ts".toList) || e (filePath ++ ".js".toList)) := by
    intro e
    rw [doesFileExist_source e filePath h1 h2 h3]
    cases e (filePath ++ ".ts".toList) <;> simp
  refine ⟨?_, ?_, ?_⟩
  · rw [hval, Bool.or_eq_true]
  · intro call hcall
    rw [doesFileExist_source existsSync filePath h1 h2 h3] at hcall
    split at hcall
    · exact Or.inl (List.mem_singleton.mp hcall)
    · simp only [List.mem_cons, List.mem_singleton, List.not_mem_nil, or_false] at hcall
      exact hcall
  · intro e hts hjs
    rw [hval, hval, hts, hjs]

/-- C15 at `/app/src/mobile.x.component.ts`, which is on disk: the answer is
false, because neither `...ts.ts` nor `...ts.js` is. -/
theorem doesFileExist_of_ts_path :
    (doesFileExist (fun p => decide (p = "/app/src/mobile.x.component.ts".toList))
        "/app/src/mobile.x.component.ts".toList).1 = false :=
  Bool.eq_false_iff.mpr fun h =>
    absurd ((doesFileExist_appends_extension
      (fun p => decide (p = "/app/src/mobile.x.component.ts".toList))
      "/app/src/mobile.x.component.ts".toList (by decide) (by decide) (by decide)).1.mp h)
      (by decide)

theorem takeWhile_replicate_append (k : Nat) (ordinary : List Str)
    (hhead : ordinary.head? ≠ some ['.', '.']) :
    ((List.replicate k ['.', '.'] ++ ordinary).takeWhile
      fun el => decide (el = ['.', '.'])).length = k := by
  induction k with
  | zero =>
    cases ordinary with
    | nil => rfl
    | cons a as =>
      have ha : a ≠ ['.', '.'] := fun h => hhead (by rw [h]; rfl)
      simp [List.takeWhile_cons, ha]
  | succ k ih =>
    simp only [List.replicate_succ, List.cons_append, List.takeWhile_cons, decide_True, if_true,
      List.length_cons, ih]

/-- C17: the parent path is split on the backslash only.  For a parent made of
segments joined by single backslashes and a request made of `k` leading `..`
pieces, `k` at most the number of segments, followed by pieces of which the
first is not `..`, the arguments of `path.join` are the parent segments
without the last `k`, and the stripped request.  A parent path without a
backslash is one segment, and a request that starts with `..` leaves nothing
of it: `path.join` gets the stripped request alone. -/
theorem getFilePath_splits_parent_on_backslash (join : List Str → Str) :
    (∀ (segments ordinary : List Str) (k : Nat),
      segments ≠ [] → (∀ segment ∈ segments, segment ≠ [] ∧ '\\' ∉ segment) →
      k ≤ segments.length →
      ordinary ≠ [] → ordinary.head? ≠ some ['.', '.'] → (∀ piece ∈ ordinary, '/' ∉ piece) →
      split '\\' (['\\'].intercalate segments) = segments ∧
        getFilePath join (['/'].intercalate (List.replicate k ['.', '.'] ++ ordinary))
            (['\\'].intercalate segments) =
          join (segments.take (segments.length - k) ++
            [replaceTraversals
              (['/'].intercalate (List.replicate k ['.', '.'] ++ ordinary))])) ∧
      ∀ relativeRequest parentPath : Str,
        '\\' ∉ parentPath → (split '/' relativeRequest).head? = some ['.', '.'] →
        split '\\' parentPath = [parentPath] ∧
          getFilePath join relativeRequest parentPath =
            join [replaceTraversals relativeRequest] := by
  constructor
  · intro segments ordinary k hne hseg hk hord hhead hpiece
    have hparent : split '\\' (['\\'].intercalate segments) = segments :=
      split_intercalate '\\' segments (fun l hl => (hseg l hl).2) hne
    have hrequest : split '/' (['/'].intercalate (List.replicate k ['.', '.'] ++ ordinary)) =
        List.replicate k ['.', '.'] ++ ordinary := by
      apply split_intercalate
      · intro l hl
        rcases List.mem_append.mp hl with h | h
        · rw [(List.mem_replicate.mp h).2]
          decide
        · exact hpiece l h
      · simp [hord]
    refine ⟨hparent, ?_⟩
    simp only [getFilePath, hparent, hrequest, popTraversals_eq_take,
      takeWhile_replicate_append k ordinary hhead]
  · intro relativeRequest parentPath hparent hhead
    have hsplit : split '\\' parentPath = [parentPath] := by
      have h := split_intercalate '\\' [parentPath]
        (fun l hl => by rw [List.mem_singleton.mp hl]; exact hparent) (by simp)
      simpa [List.intercalate] using h
    refine ⟨hsplit, ?_⟩
    have hcount : 1 ≤ ((split '/' relativeRequest).takeWhile
        fun el => decide (el = ['.', '.'])).length := by
      cases hs : split '/' relativeRequest with
      | nil => exact absurd hs (split_ne_nil _ _)
      | cons a as =>
        rw [hs] at hhead
        simp only [List.head?_cons, Option.some.injEq] at hhead
        simp [List.takeWhile_cons, hhead]
    simp only [getFilePath, hsplit, popTraversals_eq_take, List.length_singleton,
      Nat.sub_eq_zero_of_le hcount, List.take_zero, List.nil_append]

/-- C17 at the parent `C:\app\src\feature` and the request
`../shared/x.component.html`: the last parent segment is dropped; at the
parent `/app/src/feature` the whole parent is. -/
theorem getFilePath_backslash_parent :
    getFilePath posixJoin "../shared/x.component.html".toList "C:\\app\\src\\feature".toList =
        posixJoin ["C:".toList, "app".toList, "src".toList, "shared/x.component.html".toList] ∧
      getFilePath posixJoin "../shared/x.component.html".toList "/app/src/feature".toList =
        posixJoin ["shared/x.component.html".toList] :=
  ⟨(((getFilePath_splits_parent_on_backslash posixJoin).1
      ["C:".toList, "app".toList, "src".toList, "feature".toList]
      ["shared".toList, "x.component.html".toList] 1
      (by decide) (by decide) (by decide) (by decide) (by decide) (by decide)).2).trans
      (by decide),
    (((getFilePath_splits_parent_on_backslash posixJoin).2
      "../shared/x.component.html".toList "/app/src/feature".toList
      (by decide) (by decide)).2).trans (by decide)⟩

/-! ## The chain of redirects -/

/-- The last piece of a split string is determined by the string: a piece
without separator that follows the last separator, or is the whole string. -/
theorem getLastD_split_append (sep : Char) (dir t : Str) (ht : sep ∉ t)
    (hdir : dir = [] ∨ ∃ d, dir = d ++ [sep]) : (split sep (dir ++ t)).getLastD [] = t := by
  obtain ⟨dir', hs, hleaf, -⟩ := split_getLastD sep (dir ++ t)
  have h1 : t <:+ (split sep (dir ++ t)).getLastD [] :=
    suffix_getLastD_split sep (dir ++ t) t (List.suffix_append _ _) ht
  have hsuf : (split sep (dir ++ t)).getLastD [] <:+ dir ++ t := ⟨dir', hs.symm⟩
  have hafter : ∀ l : Str, l <:+ dir ++ t → sep ∉ l → l <:+ t := by
    intro l hl hfree
    rcases hdir with rfl | ⟨d, rfl⟩
    · simpa using hl
    · rw [List.append_assoc] at hl
      exact suffix_after_sep sep d t l hl hfree
  have h2 := hafter _ hsuf hleaf
  exact (h1.eq_of_length_le h2.length_le).symm

theorem not_mem_lastSegment (s : Str) : '/' ∉ lastSegment s :=
  (split_getLastD '/' s).choose_spec.2.1

/-- The new request is the file name, or a directory part ending in `/`
followed by the file name. -/
theorem getPreferredRequest_eq_append (request : Request) (fileName : Str) :
    ∃ dir, getPreferredRequest request fileName = dir ++ fileName ∧
      (dir = [] ∨ ∃ d, dir = d ++ ['/']) := by
  simp only [getPreferredRequest, List.foldl_append, List.foldl_cons, List.foldl_nil]
  split
  · exact ⟨_, rfl, Or.inr ⟨_, rfl⟩⟩
  · rename_i h
    exact ⟨_, rfl, Or.inl (not_not.mp h)⟩

/-- The last segment of the new request: the last segment of the prefix, a dot
and the last segment of the request. -/
theorem lastSegment_getPreferredRequest (request : Request) (pfx : Str) :
    lastSegment (getPreferredRequest request (getPreferredFileName request pfx)) =
      lastSegment pfx ++ '.' :: lastSegment request.request := by
  obtain ⟨dir, hreq, hdir⟩ := getPreferredRequest_eq_append request
    (getPreferredFileName request pfx)
  obtain ⟨pdir, hpfx, -, hpdir⟩ := split_getLastD '/' pfx
  have hname : getPreferredFileName request pfx =
      pdir ++ (lastSegment pfx ++ '.' :: lastSegment request.request) := by
    have : getPreferredFileName request pfx = pfx ++ '.' :: lastSegment request.request := by
      simp [getPreferredFileName, lastSegment]
    rw [this]
    conv_lhs => rw [hpfx]
    simp [lastSegment]
  have hfree : '/' ∉ lastSegment pfx ++ '.' :: lastSegment request.request := by
    simp only [List.mem_append, List.mem_cons, not_or]
    exact ⟨not_mem_lastSegment pfx, by decide, not_mem_lastSegment request.request⟩
  unfold lastSegment at hfree ⊢
  rw [hreq, hname, ← List.append_assoc]
  apply getLastD_split_append '/' _ _ hfree
  rcases hpdir with rfl | ⟨d, rfl⟩
  · simpa using hdir
  · exact Or.inr ⟨dir ++ d, by simp⟩

/-- The last segment of a supported request is nine characters or longer. -/
theorem length_lastSegment_of_isSupported (request : Request)
    (hsup : isSupported request = true) : 9 ≤ (lastSegment request.request).length := by
  have key : ∀ suf : Str, '/' ∉ suf → 9 ≤ suf.length → endsWith request.request suf = true →
      9 ≤ (lastSegment request.request).length := by
    intro suf hsep hlen h
    have := (suffix_getLastD_split '/' request.request suf ((endsWith_iff _ _).mp h)
      hsep).length_le
    unfold lastSegment
    omega
  rcases (isSupported_iff request).mp hsup with h | h | h | h | h | h
  · exact key _ (by decide) (by decide) h
  · exact key _ (by decide) (by decide) h
  · exact key _ (by decide) (by decide) h
  · exact key _ (by decide) (by decide) h
  · exact key _ (by decide) (by decide) h
  · exact key _ (by decide) (by decide) h

/-- The candidate path on POSIX ends in the last segment of the new request. -/
theorem lastSegment_suffix_candidatePath (pfx : Str) (request : Request)
    (hsup : isSupported request = true) :
    lastSegment pfx ++ '.' :: lastSegment request.request <:+
      candidatePath posixJoin pfx request := by
  have hlen := length_lastSegment_of_isSupported request hsup
  have hfree : '/' ∉ lastSegment pfx ++ '.' :: lastSegment request.request := by
    simp only [List.mem_append, List.mem_cons, not_or]
    exact ⟨not_mem_lastSegment pfx, by decide, not_mem_lastSegment request.request⟩
  have h0 : lastSegment pfx ++ '.' :: lastSegment request.request <:+
      getPreferredRequest request (getPreferredFileName request pfx) := by
    rw [← lastSegment_getPreferredRequest]
    obtain ⟨dir, hs, -, -⟩ := split_getLastD '/'
      (getPreferredRequest request (getPreferredFileName request pfx))
    exact ⟨dir, hs.symm⟩
  have h1 := suffix_replaceTraversals _ _ h0 hfree
  unfold candidatePath getFilePath
  apply suffix_posixJoin _ _ _ _ hfree h1
  simp only [List.length_append, List.length_cons]
  omega

/-- A successful `doesFileExist` found a path that exists: the path it was
given, followed by nothing, `.ts` or `.js`. -/
theorem exists_of_doesFileExist (existsSync : Str → Bool) (filePath : Str)
    (h : (doesFileExist existsSync filePath).1 = true) :
    ∃ ext, '/' ∉ ext ∧ existsSync (filePath ++ ext) = true := by
  unfold doesFileExist at h
  split at h
  · exact ⟨[], by simp, by simpa using h⟩
  · split at h
    · rename_i hts
      exact ⟨_, by decide, hts⟩
    · exact ⟨_, by decide, h⟩

/-- Every path the hook asks `fs.existsSync` for starts with the candidate
path. -/
theorem mem_doesFileExist_calls_append (existsSync : Str → Bool) (filePath path : Str)
    (h : Call.existsSync path ∈ (doesFileExist existsSync filePath).2) :
    ∃ ext, path = filePath ++ ext := by
  unfold doesFileExist at h
  split at h
  · simp only [List.mem_singleton, Call.existsSync.injEq] at h
    exact ⟨[], by simpa using h⟩
  · split at h
    · simp only [List.mem_singleton, Call.existsSync.injEq] at h
      exact ⟨_, h⟩
    · simp only [List.mem_cons, List.mem_singleton, Call.existsSync.injEq, List.not_mem_nil,
        or_false] at h
      rcases h with h | h <;> exact ⟨_, h⟩

theorem mem_of_redirectTarget (calls : List Call) (request : Request)
    (h : redirectTarget calls = some request) :
    ∃ target message, Call.doResolve target request message ∈ calls := by
  induction calls with
  | nil => simp [redirectTarget] at h
  | cons call calls ih =>
    cases call with
    | existsSync path =>
      obtain ⟨t, m, hm⟩ := ih (by simpa [redirectTarget] using h)
      exact ⟨t, m, List.mem_cons_of_mem _ hm⟩
    | callback =>
      obtain ⟨t, m, hm⟩ := ih (by simpa [redirectTarget] using h)
      exact ⟨t, m, List.mem_cons_of_mem _ hm⟩
    | doResolve target r message =>
      simp only [redirectTarget, Option.some.injEq] at h
      exact ⟨target, message, by rw [h]; exact List.mem_cons_self _ _⟩

theorem redirectTarget_pipelineCalls (calls : List Call) :
    redirectTarget (pipelineCalls calls) = redirectTarget calls := by
  induction calls with
  | nil => rfl
  | cons call calls ih =>
    cases call with
    | existsSync path => simpa [pipelineCalls, redirectTarget] using ih
    | callback => simpa [pipelineCalls, redirectTarget] using ih
    | doResolve target r message => simp [pipelineCalls, redirectTarget]

/-- When no request comes back from the hook, the hook passed through. -/
theorem pipelineCalls_of_resubmit_none (join : List Str → Str) (existsSync : Str → Bool)
    (preferredFilePrefix : Option Str) (request : Request)
    (h : resubmit join existsSync preferredFilePrefix request = none) :
    pipelineCalls (hook join existsSync preferredFilePrefix request).calls = [Call.callback] := by
  rcases pipelineCalls_hook join existsSync preferredFilePrefix request with hc | ⟨r, m, hc⟩
  · exact hc
  · unfold resubmit at h
    rw [← redirectTarget_pipelineCalls, hc] at h
    simp [redirectTarget] at h

/-- One redirect on POSIX: the request was supported, the new request is the
preferred one, and a path exists whose last segment is longer than the last
segment of the request. -/
theorem of_resubmit_some (existsSync : Str → Bool) (pfx : Str) (request newRequest : Request)
    (h : resubmit posixJoin existsSync (some pfx) request = some newRequest) :
    isSupported request = true ∧
      newRequest.request = getPreferredRequest request (getPreferredFileName request pfx) ∧
      ∃ path, existsSync path = true ∧
        (lastSegment request.request).length < (lastSegment path).length := by
  obtain ⟨target, message, hmem⟩ := mem_of_redirectTarget _ _ h
  obtain ⟨-, hsup, hprobe, hnew⟩ := of_mem_hook_calls posixJoin existsSync pfx request
    newRequest target message hmem
  refine ⟨hsup, by rw [hnew], ?_⟩
  obtain ⟨ext, hfree, hext⟩ := exists_of_doesFileExist existsSync _ hprobe
  refine ⟨_, hext, ?_⟩
  obtain ⟨t, ht⟩ := lastSegment_suffix_candidatePath pfx request hsup
  have hsuf : (lastSegment pfx ++ '.' :: lastSegment request.request) ++ ext <:+
      candidatePath posixJoin pfx request ++ ext := ⟨t, by rw [← ht]; simp⟩
  have hno : '/' ∉ (lastSegment pfx ++ '.' :: lastSegment request.request) ++ ext := by
    simp only [List.mem_append, List.mem_cons, not_or]
    exact ⟨⟨not_mem_lastSegment pfx, by decide, not_mem_lastSegment request.request⟩, hfree⟩
  have hlen := (suffix_getLastD_split '/' _ _ hsuf hno).length_le
  simp only [lastSegment, List.length_append, List.length_cons] at hlen ⊢
  omega

/-- Finitely many names among the paths that exist: their length is bounded. -/
theorem exists_length_bound (existsSync : Str → Bool)
    (hfinite : Set.Finite
      {name : Str | ∃ path, existsSync path = true ∧ lastSegment path = name}) :
    ∃ bound, ∀ path, existsSync path = true → (lastSegment path).length ≤ bound := by
  obtain ⟨bound, hbound⟩ := (hfinite.image List.length).bddAbove
  exact ⟨bound, fun path hpath => hbound ⟨lastSegment path, ⟨path, hpath, rfl⟩, rfl⟩⟩

/-- With a bound on the length of the last segment of the paths that exist,
the chain of redirects reaches a request on which the hook passes through. -/
theorem redirectChain_reaches_callback (existsSync : Str → Bool) (pfx : Str) (bound : Nat)
    (hbound : ∀ path, existsSync path = true → (lastSegment path).length ≤ bound) :
    ∀ (k : Nat) (request : Request), bound - (lastSegment request.request).length ≤ k →
      ∃ n lastRequest,
        redirectChain posixJoin existsSync (some pfx) n request = some lastRequest ∧
        pipelineCalls (hook posixJoin existsSync (some pfx) lastRequest).calls =
          [Call.callback] := by
  intro k
  induction k with
  | zero =>
    intro request hk
    cases h : resubmit posixJoin existsSync (some pfx) request with
    | none => exact ⟨0, request, rfl, pipelineCalls_of_resubmit_none _ _ _ _ h⟩
    | some newRequest =>
      obtain ⟨-, -, path, hpath, hlen⟩ := of_resubmit_some existsSync pfx request newRequest h
      have := hbound path hpath
      omega
  | succ k ih =>
    intro request hk
    cases h : resubmit posixJoin existsSync (some pfx) request with
    | none => exact ⟨0, request, rfl, pipelineCalls_of_resubmit_none _ _ _ _ h⟩
    | some newRequest =>
      obtain ⟨-, hnew, path, hpath, hlen⟩ := of_resubmit_some existsSync pfx request newRequest h
      have hb := hbound path hpath
      have hgrow : (lastSegment newRequest.request).length =
          (lastSegment pfx).length + 1 + (lastSegment request.request).length := by
        rw [hnew, lastSegment_getPreferredRequest]
        simp only [List.length_append, List.length_cons]
        omega
      obtain ⟨n, lastRequest, hchain, hlast⟩ := ih newRequest (by omega)
      exact ⟨n + 1, lastRequest, by simp only [redirectChain, h, hchain], hlast⟩

theorem lastSegment_of_not_mem (s : Str) (h : '/' ∉ s) : lastSegment s = s := by
  have := getLastD_split_append '/' [] s h (Or.inl rfl)
  simpa [lastSegment] using this

/-! ## The chain of redirects on Windows -/

theorem splitSeparators_ne_nil (s : Str) : splitSeparators s ≠ [] := by
  cases s with
  | nil => simp [splitSeparators]
  | cons c cs =>
    simp only [splitSeparators]
    split
    · simp
    · split <;> simp

theorem splitSeparators_append_sep (a t : Str) (c : Char) (hc : isPathSeparator c = true) :
    splitSeparators (a ++ c :: t) = splitSeparators a ++ splitSeparators t := by
  induction a with
  | nil => simp [splitSeparators, hc]
  | cons x a ih =>
    have hcons : ∀ s : Str, splitSeparators (x :: s) =
        if isPathSeparator x = true then [] :: splitSeparators s
        else
          match splitSeparators s with
          | [] => [[x]]
          | seg :: segs => (x :: seg) :: segs := fun s => by rw [splitSeparators]
    rw [List.cons_append, hcons, hcons, ih]
    split
    · rfl
    · cases hs : splitSeparators a with
      | nil => exact absurd hs (splitSeparators_ne_nil a)
      | cons seg segs => rfl

theorem splitSeparators_of_no_sep (u : Str) (hu : ∀ c ∈ u, isPathSeparator c = false) :
    splitSeparators u = [u] := by
  induction u with
  | nil => rfl
  | cons x u ih =>
    have hx : isPathSeparator x = false := hu x (List.mem_cons_self _ _)
    simp only [splitSeparators, hx, Bool.false_eq_true, if_false,
      ih (fun c hc => hu c (List.mem_cons_of_mem _ hc))]

theorem win32Join_redirected (u : Str) (hu : ∀ c ∈ u, isPathSeparator c = false) :
    win32Join ["C:".toList, "app".toList,
        "./mobile.".toList ++ u ++ "\\..\\x.component".toList] =
      "C:\\app\\x.component".toList := by
  have hmobile : ∀ c ∈ "mobile.".toList, isPathSeparator c = false := by decide
  have hseg : ∀ c ∈ "mobile.".toList ++ u, isPathSeparator c = false := by
    intro c hc
    rcases List.mem_append.mp hc with h | h
    · exact hmobile c h
    · exact hu c h
  have hsplit : splitSeparators ("app\\./mobile.".toList ++ u ++ "\\..\\x.component".toList) =
      ["app".toList, ".".toList, "mobile.".toList ++ u, "..".toList, "x.component".toList] := by
    have e : "app\\./mobile.".toList ++ u ++ "\\..\\x.component".toList =
        "app".toList ++ '\\' :: (".".toList ++ '/' :: (("mobile.".toList ++ u) ++
          '\\' :: ("..".toList ++ '\\' :: "x.component".toList))) := by
      simp
    rw [e, splitSeparators_append_sep _ _ _ (by decide),
      splitSeparators_append_sep _ _ _ (by decide),
      splitSeparators_append_sep _ _ _ (by decide),
      splitSeparators_append_sep _ _ _ (by decide),
      splitSeparators_of_no_sep _ hseg]
    rfl
  simp [win32Join, List.intercalate, win32Normalize, isPathSeparator, isWindowsDeviceRoot,
    win32NormalizeTail, win32NormalizeString]
  simp at hsplit
  have hlast : ∀ v : Str,
      (v ++ ['\\', '.', '.', '\\', 'x', '.', 'c', 'o', 'm', 'p', 'o', 'n', 'e', 'n', 't']).getLast? =
        some 't' := by
    intro v
    rw [List.getLast?_append_of_ne_nil _ (by simp)]
    rfl
  simp [hsplit, normalizeStep, hlast, List.getLast?_cons_cons]
  intro x hx
  have h := hlast ('.' :: u)
  rw [List.cons_append] at h
  rw [h, Option.some.injEq] at hx
  subst hx
  decide

theorem matchAfterDotPlus_of_not_mem (s : Str) (h : '/' ∉ s) : matchAfterDotPlus s = none := by
  induction s with
  | nil => rfl
  | cons c cs ih =>
    have hcs : '/' ∉ cs := fun hm => h (List.mem_cons_of_mem _ hm)
    have hdot : matchDotSlash (c :: cs) = none := by
      cases cs with
      | nil => rfl
      | cons c₂ rest =>
        have hc₂ : c₂ ≠ '/' := fun e => hcs (e ▸ List.mem_cons_self _ _)
        simp [matchDotSlash, hc₂]
    rw [matchAfterDotPlus, ih hcs, hdot]
    simp only [ite_self]

/-- A request `./name` whose name holds no `/` is left as it is by the
regular expression: `.+` needs a character before the `./` it looks for. -/
theorem replaceTraversals_dot_slash (s : Str) (h : '/' ∉ s) :
    replaceTraversals ('.' :: '/' :: s) = '.' :: '/' :: s := by
  have hdot : matchDotSlash ('/' :: s) = none := by
    cases s with
    | nil => rfl
    | cons c₂ rest => simp [matchDotSlash]
  have hmatch : matchAfterDotPlus ('/' :: s) = none := by
    rw [matchAfterDotPlus, matchAfterDotPlus_of_not_mem s h, hdot]
    simp only [ite_self]
  rw [replaceTraversals, hmatch]
  split <;> rfl

theorem split_dot_slash (s : Str) (h : '/' ∉ s) : split '/' ('.' :: '/' :: s) = [['.'], s] := by
  have := split_intercalate '/' [['.'], s]
    (fun l hl => by
      simp only [List.mem_cons, List.mem_singleton, List.not_mem_nil, or_false] at hl
      rcases hl with rfl | rfl
      · decide
      · exact h)
    (by simp)
  simpa [List.intercalate] using this

/-- One redirect on Windows: from the parent `C:\app`, with prefix `mobile` and
`C:\app\x.component.ts` the only path on disk, the request
`./u\..\x.component` is redirected to `./mobile.u\..\x.component`, for every
`u` without separator: `path.join` resolves `mobile.u\..` away and the
candidate path is `C:\app\x.component` each time. -/
theorem resubmit_win32 (u : Str) (hu : ∀ c ∈ u, isPathSeparator c = false) :
    resubmit win32Join (fun p => decide (p = "C:\\app\\x.component.ts".toList))
        (some "mobile".toList)
        ⟨"C:\\app".toList, "./".toList ++ u ++ "\\..\\x.component".toList, [], false⟩ =
      some ⟨"C:\\app".toList, "./mobile.".toList ++ u ++ "\\..\\x.component".toList,
        [], false⟩ := by
  have hfree : ∀ v : Str, (∀ c ∈ v, isPathSeparator c = false) →
      '/' ∉ v ++ "\\..\\x.component".toList := by
    intro v hv hm
    rcases List.mem_append.mp hm with h | h
    · exact absurd (hv _ h) (by decide)
    · exact absurd h (by decide)
  have hname0 : ∀ c ∈ "mobile.".toList, isPathSeparator c = false := by decide
  have hmobile : ∀ c ∈ "mobile.".toList ++ u, isPathSeparator c = false := by
    intro c hc
    rcases List.mem_append.mp hc with h | h
    · exact hname0 c h
    · exact hu c h
  have hsplit : split '/' ("./".toList ++ u ++ "\\..\\x.component".toList) =
      [['.'], u ++ "\\..\\x.component".toList] := by
    have := split_dot_slash _ (hfree u hu)
    simpa using this
  have hname : getPreferredFileName
      ⟨"C:\\app".toList, "./".toList ++ u ++ "\\..\\x.component".toList, [], false⟩
      "mobile".toList = "mobile.".toList ++ u ++ "\\..\\x.component".toList := by
    simp only [getPreferredFileName, hsplit]
    simp
  have hrequest : getPreferredRequest
      ⟨"C:\\app".toList, "./".toList ++ u ++ "\\..\\x.component".toList, [], false⟩
      ("mobile.".toList ++ u ++ "\\..\\x.component".toList) =
      "./mobile.".toList ++ u ++ "\\..\\x.component".toList := by
    simp only [getPreferredRequest, hsplit]
    simp
  have hcandidate : getFilePath win32Join
      ("./mobile.".toList ++ u ++ "\\..\\x.component".toList) "C:\\app".toList =
      "C:\\app\\x.component".toList := by
    have hform : "./mobile.".toList ++ u ++ "\\..\\x.component".toList =
        '.' :: '/' :: (("mobile.".toList ++ u) ++ "\\..\\x.component".toList) := by simp
    have hparent : split '\\' "C:\\app".toList = ["C:".toList, "app".toList] := by decide
    have hstrip := replaceTraversals_dot_slash _ (hfree _ hmobile)
    have hpieces := split_dot_slash _ (hfree _ hmobile)
    rw [getFilePath, hparent, hform, hstrip, hpieces]
    have hpop : popTraversals
        [['.'], "mobile.".toList ++ u ++ "\\..\\x.component".toList]
        ["C:".toList, "app".toList] = ["C:".toList, "app".toList] := by
      simp [popTraversals]
    rw [hpop, ← hform]
    exact win32Join_redirected u hu
  have hsup : isSupported
      ⟨"C:\\app".toList, "./".toList ++ u ++ "\\..\\x.component".toList, [], false⟩ = true := by
    rw [isSupported_iff]
    refine Or.inl ((endsWith_iff _ _).mpr ⟨"./".toList ++ u ++ "\\..\\x.".toList, ?_⟩)
    simp
  have hprobe : doesFileExist (fun p => decide (p = "C:\\app\\x.component.ts".toList))
      "C:\\app\\x.component".toList =
      (true, [Call.existsSync "C:\\app\\x.component.ts".toList]) := by decide
  rw [resubmit, hook_supported _ _ _ _ (by decide) hsup]
  simp only [hname, hrequest, hcandidate, hprobe, if_true]
  rfl

/-- The chain on Windows: after any number of redirects the request is again
of the form `./u\..\x.component`. -/
theorem redirectChain_win32 (n : Nat) :
    ∀ u : Str, (∀ c ∈ u, isPathSeparator c = false) →
      ∃ v : Str, (∀ c ∈ v, isPathSeparator c = false) ∧
        redirectChain win32Join (fun p => decide (p = "C:\\app\\x.component.ts".toList))
            (some "mobile".toList) n
            ⟨"C:\\app".toList, "./".toList ++ u ++ "\\..\\x.component".toList, [], false⟩ =
          some ⟨"C:\\app".toList, "./".toList ++ v ++ "\\..\\x.component".toList,
            [], false⟩ := by
  induction n with
  | zero => exact fun u hu => ⟨u, hu, rfl⟩
  | succ n ih =>
    intro u hu
    have hname0 : ∀ c ∈ "mobile.".toList, isPathSeparator c = false := by decide
    have hmobile : ∀ c ∈ "mobile.".toList ++ u, isPathSeparator c = false := by
      intro c hc
      rcases List.mem_append.mp hc with h | h
      · exact hname0 c h
      · exact hu c h
    obtain ⟨v, hv, hchain⟩ := ih ("mobile.".toList ++ u) hmobile
    refine ⟨v, hv, ?_⟩
    have hform : "./mobile.".toList ++ u ++ "\\..\\x.component".toList =
        "./".toList ++ ("mobile.".toList ++ u) ++ "\\..\\x.component".toList := by simp
    rw [redirectChain, resubmit_win32 u hu]
    simp only [hform]
    exact hchain

/-- C16 as stated fails twice.  For a prefix that holds a `/`: with prefix
`a/b` and `/app/src/a/b.x.component.ts` on disk the hook redirects
`./x.component` to `./a/b.x.component`, whose last segment is `b.x.component`
and not the prefix, a dot and the previous last segment.  And with the
`path.join` of Windows the chain need not end: from the parent `C:\app`, with
prefix `mobile` and `C:\app\x.component.ts` the only path on disk, the request
`./a\..\x.component` is redirected to `./mobile.a\..\x.component`, that one
to `./mobile.mobile.a\..\x.component` and so on, the candidate path being
`C:\app\x.component` every time; no number of redirects reaches a request on
which the hook passes through. -/
theorem redirect_chain_fails :
    (resubmit posixJoin (fun p => decide (p = "/app/src/a/b.x.component.ts".toList))
          (some "a/b".toList) ⟨"/app/src".toList, "./x.component".toList, [], false⟩ =
        some ⟨"/app/src".toList, "./a/b.x.component".toList, [], false⟩ ∧
      lastSegment "./a/b.x.component".toList = "b.x.component".toList ∧
      lastSegment "./a/b.x.component".toList ≠
        "a/b".toList ++ '.' :: lastSegment "./x.component".toList) ∧
    Set.Finite {path : Str | decide (path = "C:\\app\\x.component.ts".toList) = true} ∧
    candidatePath win32Join "mobile".toList
        ⟨"C:\\app".toList, "./a\\..\\x.component".toList, [], false⟩ =
      "C:\\app\\x.component".toList ∧
    candidatePath win32Join "mobile".toList
        ⟨"C:\\app".toList, "./mobile.a\\..\\x.component".toList, [], false⟩ =
      "C:\\app\\x.component".toList ∧
    ¬ ∃ n lastRequest,
      redirectChain win32Join (fun p => decide (p = "C:\\app\\x.component.ts".toList))
          (some "mobile".toList) n
          ⟨"C:\\app".toList, "./a\\..\\x.component".toList, [], false⟩ = some lastRequest ∧
        pipelineCalls (hook win32Join
          (fun p => decide (p = "C:\\app\\x.component.ts".toList))
          (some "mobile".toList) lastRequest).calls = [Call.callback] := by
  refine ⟨by decide, ?_, by decide, by decide, ?_⟩
  · exact (Set.finite_singleton "C:\\app\\x.component.ts".toList).subset
      (fun path hpath => by simpa using hpath)
  · rintro ⟨n, lastRequest, hchain, hcallback⟩
    obtain ⟨v, hv, hn⟩ := redirectChain_win32 n "a".toList (by decide)
    have hstart : "./".toList ++ "a".toList ++ "\\..\\x.component".toList =
        "./a\\..\\x.component".toList := by decide
    rw [hstart, hchain, Option.some.injEq] at hn
    have hnext := resubmit_win32 v hv
    rw [← hn, resubmit, ← redirectTarget_pipelineCalls, hcallback] at hnext
    simp [redirectTarget] at hnext

/-- C16, amended: with the `path.join` of POSIX, for every prefix, starting
request and filesystem in which the paths that exist have finitely many
different last segments (so when finitely many paths, or finitely many files,
exist), feeding each redirected request back into the hook reaches a request
on which the hook passes through, after finitely many redirects.  Each
redirect yields a request whose last `/`-segment is the last `/`-segment of
the prefix, a dot and the previous last segment (the prefix, a dot and the
previous last segment when the prefix holds no `/`), so it is strictly longer;
the candidate path ends in that segment and every path the hook asks for
starts with the candidate path. -/
theorem redirect_chain_terminates (existsSync : Str → Bool) (pfx : Str) (request : Request)
    (hfinite : Set.Finite
      {name : Str | ∃ path, existsSync path = true ∧ lastSegment path = name}) :
    (∃ n lastRequest,
      redirectChain posixJoin existsSync (some pfx) n request = some lastRequest ∧
      pipelineCalls (hook posixJoin existsSync (some pfx) lastRequest).calls =
        [Call.callback]) ∧
    ∀ r newRequest : Request,
      resubmit posixJoin existsSync (some pfx) r = some newRequest →
      lastSegment newRequest.request = lastSegment pfx ++ '.' :: lastSegment r.request ∧
        ('/' ∉ pfx → lastSegment newRequest.request = pfx ++ '.' :: lastSegment r.request) ∧
        (lastSegment r.request).length < (lastSegment newRequest.request).length ∧
        lastSegment newRequest.request <:+ candidatePath posixJoin pfx r ∧
        ∀ path, Call.existsSync path ∈ (hook posixJoin existsSync (some pfx) r).calls →
          ∃ ext, path = candidatePath posixJoin pfx r ++ ext := by
  constructor
  · obtain ⟨bound, hbound⟩ := exists_length_bound existsSync hfinite
    exact redirectChain_reaches_callback existsSync pfx bound hbound _ request (le_refl _)
  · intro r newRequest h
    obtain ⟨hsup, hnew, -⟩ := of_resubmit_some existsSync pfx r newRequest h
    obtain ⟨target, message, hmem⟩ := mem_of_redirectTarget _ _ h
    obtain ⟨hpfx, -, -, -⟩ := of_mem_hook_calls posixJoin existsSync pfx r newRequest target
      message hmem
    have hlast : lastSegment newRequest.request =
        lastSegment pfx ++ '.' :: lastSegment r.request := by
      rw [hnew, lastSegment_getPreferredRequest]
    refine ⟨hlast, ?_, ?_, ?_, ?_⟩
    · intro hfree
      rw [hlast, lastSegment_of_not_mem pfx hfree]
    · rw [hlast]
      simp only [List.length_append, List.length_cons]
      omega
    · rw [hlast]
      exact lastSegment_suffix_candidatePath pfx r hsup
    · intro path hpath
      rw [hook_supported posixJoin existsSync pfx r hpfx hsup] at hpath
      simp only [List.mem_append, List.mem_singleton] at hpath
      rcases hpath with hp | hp
      · exact mem_doesFileExist_calls_append existsSync _ path hp
      · split at hp <;> exact absurd hp (by simp)

/-- C16, amended, at `./widget.component` with prefix `mobile` and
`/app/src/mobile.widget.component.ts` the only path on disk: one redirect, to
`./mobile.widget.component`, and the hook passes through there. -/
theorem redirect_chain_widget_component :
    redirectChain posixJoin (fun p => decide (p = "/app/src/mobile.widget.component.ts".toList))
        (some "mobile".toList) 1 ⟨"/app/src".toList, "./widget.component".toList, [], false⟩ =
      some ⟨"/app/src".toList, "./mobile.widget.component".toList, [], false⟩ ∧
    ∃ n lastRequest,
      redirectChain posixJoin
          (fun p => decide (p = "/app/src/mobile.widget.component.ts".toList))
          (some "mobile".toList) n
          ⟨"/app/src".toList, "./widget.component".toList, [], false⟩ = some lastRequest ∧
        pipelineCalls (hook posixJoin
          (fun p => decide (p = "/app/src/mobile.widget.component.ts".toList))
          (some "mobile".toList) lastRequest).calls = [Call.callback] :=
  ⟨by decide,
    (redirect_chain_terminates
      (fun p => decide (p = "/app/src/mobile.widget.component.ts".toList)) "mobile".toList
      ⟨"/app/src".toList, "./widget.component".toList, [], false⟩
      ((Set.finite_singleton (lastSegment "/app/src/mobile.widget.component.ts".toList)).subset
        (fun name hname => by
          obtain ⟨path, hpath, hlast⟩ := hname
          have hp : path = "/app/src/mobile.widget.component.ts".toList := by simpa using hpath
          rw [← hlast, hp]
          exact Set.mem_singleton _))).1⟩

end DynamicAngularComponentInjectorPlugin
